import Mathlib

set_option maxHeartbeats 1000000

/-!
Shallow embedding of the SdBG construction core of MEGAHIT
(src/cx1_seq2sdbg.cpp and src/cx1_read2sdbg_s2.cpp), together with proofs
about the CX1 level-1 differential encoding, the lv0 bucket-size
preprocessor, the mercy-edge augmenter and the SdBG emitter.

Numeric constants that live in headers absent from src/ (definitions.h,
cx1.h) are either taken from the specification (kSentinelValue = 4,
kBWTCharNumBits = 3, kBitsPerMulti_t = 16, kMaxMulti_t = 65535) or kept as
parameters (kBucketPrefixLength, kNumBuckets, kBucketBase,
kDifferentialLimit, kMaxDummyEdges).
-/

/-! ## Constants (values mirrored from the spec, headers absent from src/) -/

/-- Sentinel character value: the fifth symbol standing for the end of a
source sequence. -/
def kSentinelValue : Nat := 4

/-- Width in bits of the BWT-predecessor character field of a level-2 item. -/
def kBWTCharNumBits : Nat := 3

/-- Width in bits of the multiplicity field of a seq2sdbg level-2 item
(kBitsPerMulti_t). -/
def kBitsPerMulti : Nat := 16

/-- Largest representable multiplicity (kMaxMulti_t). -/
def kMaxMulti : Nat := 65535

/-- Bit test written in the C sources as x & (1 << t). -/
def hasBit (x t : Nat) : Bool := x &&& (1 <<< t) != 0

/-! ## Level-1 differential filler and its decoder (C3, C4)

CHECK_AND_SAVE_OFFSET of lv1_fill_offset (cx1_seq2sdbg.cpp lines 655-671)
and s2_lv1_fill_offset (cx1_read2sdbg_s2.cpp lines 429-446), restricted to
one bucket and one worker: the absolute offsets of the bucket arrive in
traversal order; each one is stored either as a 32-bit non-negative
differential from the previous offset, or, when the differential exceeds
kDifferentialLimit, pushed into the shared side table
(lv1_items_special_) with the slot holding -(index)-1.  A negative
differential fails assert(differential >= 0), modelled as none. -/

def fillOffsets (dlimit prev : Int) (special : List Int) :
    List Int → Option (List Int × List Int)
  | [] => some ([], special)
  | fo :: rest =>
    if dlimit < fo - prev then
      match fillOffsets dlimit fo (special ++ [fo]) rest with
      | some (slots, sp) => some ((-(special.length : Int) - 1) :: slots, sp)
      | none => none
    else if 0 ≤ fo - prev then
      match fillOffsets dlimit fo special rest with
      | some (slots, sp) => some ((fo - prev) :: slots, sp)
      | none => none
    else none

/-- Decoder loop of lv2_extract_substr (cx1_seq2sdbg.cpp lines 726-733):
a non-negative slot is added to the running offset, a negative slot is
replaced by the side-table entry at index -1 - slot. -/
def decodeSlots (special : List Int) (cur : Int) : List Int → List Int
  | [] => []
  | s :: rest =>
    if 0 ≤ s then (cur + s) :: decodeSlots special (cur + s) rest
    else
      special.getD (-1 - s).toNat 0 ::
        decodeSlots special (special.getD (-1 - s).toNat 0) rest

/-- Offset preceding position t in the encoded stream: the differential base
for the first item, the previous absolute offset afterwards. -/
def offsPrev (base : Int) (offs : List Int) (t : Nat) : Int :=
  if t = 0 then base else offs.getD (t - 1) 0

/-! ## SdBG emitter records (shared output shape, used by C9) -/

/-- Output record of lv2_output with its decided labels: i, j are the item
index bounds of the sub-group, a and b its two extracted symbols. -/
structure SRecord where
  i : Nat
  j : Nat
  a : Nat
  b : Nat
  w : Nat
  last : Nat
  isDollar : Nat
deriving DecidableEq

/-- Diagnostic of the fatal exit of lv2_output when the dummy-node counter
overflows (cx1_seq2sdbg.cpp lines 988-991, cx1_read2sdbg_s2.cpp lines
800-803). -/
def kTooManyTipsMsg : String :=
  "Too many dummy nodes! The graph contains too many tips!"

/-- Sequential output loop of lv2_output restricted to the dummy-node
counter: every record with IsDollar set increments num_dollar_nodes, and the
run aborts fatally as soon as the counter reaches kMaxDummyEdges. -/
def outputDollarLoop (kMaxDummyEdges : Nat) : List SRecord → Nat → Except String Nat
  | [], ndn => Except.ok ndn
  | r :: rest, ndn =>
    if r.isDollar = 1 then
      if kMaxDummyEdges ≤ ndn + 1 then Except.error kTooManyTipsMsg
      else outputDollarLoop kMaxDummyEdges rest (ndn + 1)
    else outputDollarLoop kMaxDummyEdges rest ndn

/-! ## Bucket-size preprocessor of seq2sdbg (C5, C7)

lv0_calc_bucket_size (cx1_seq2sdbg.cpp lines 505-541): for each sequence of
length at least k+1 the loop slides a rolling base-kBucketBase key over the
digit stream of each strand; every iteration increments exactly one bucket.
kBucketBase, kNumBuckets and kBucketPrefixLength live in a header absent
from src/ and are kept as parameters bb, nB and B. -/

/-- Rolling-key loop of lv0_calc_bucket_size with an explicit iteration
budget (the loop index is bounded, so the budget L + B + 1 - i never runs
out before the guard fails): while i - (B-1) + k - 1 <= L, i.e.
i + k <= L + B, push the next digit into the key modulo nB and increment
that bucket, recorded as the pair (i, key). -/
def seqKeyLoopAux (bb nB L B k : Nat) (digit : Nat → Nat) : Nat → Nat → Nat → List (Nat × Nat)
  | 0, _, _ => []
  | fuel + 1, i, key =>
    if i + k ≤ L + B then
      (i, (key * bb + digit i) % nB) ::
        seqKeyLoopAux bb nB L B k digit fuel (i + 1) ((key * bb + digit i) % nB)
    else []

/-- Rolling-key loop of lv0_calc_bucket_size started at position i. -/
def seqKeyLoop (bb nB L B k : Nat) (digit : Nat → Nat) (i key : Nat) : List (Nat × Nat) :=
  seqKeyLoopAux bb nB L B k digit (L + B + 1 - i) i key

/-- Initial partial key built from the first B-1 digits (no modulo in the
source). -/
def seqInitKey (bb B : Nat) (digit : Nat → Nat) : Nat :=
  (List.range (B - 1)).foldl (fun key idx => key * bb + digit idx) 0

/-- Forward-strand digit at position i: get_base(seq, i) + 1. -/
def seqFwdDigit (bases : List Nat) (i : Nat) : Nat := bases.getD i 0 + 1

/-- Reverse-strand digit at position i: (3 - get_base(seq, L - 1 - i)) + 1. -/
def seqRcDigit (bases : List Nat) (L i : Nat) : Nat := (3 - bases.getD (L - 1 - i) 0) + 1

/-- Bucket increments (loop position, bucket key) of the forward pass of
lv0_calc_bucket_size for one sequence; sequences shorter than k+1 are
skipped. -/
def lv0FwdIncrements (bb nB B k : Nat) (bases : List Nat) : List (Nat × Nat) :=
  if bases.length < k + 1 then [] else
    seqKeyLoop bb nB bases.length B k (seqFwdDigit bases) (B - 1)
      (seqInitKey bb B (seqFwdDigit bases))

/-- Bucket increments of the reverse-complement pass of
lv0_calc_bucket_size, which runs unconditionally for every sequence. -/
def lv0RcIncrements (bb nB B k : Nat) (bases : List Nat) : List (Nat × Nat) :=
  if bases.length < k + 1 then [] else
    seqKeyLoop bb nB bases.length B k (seqRcDigit bases bases.length) (B - 1)
      (seqInitKey bb B (seqRcDigit bases bases.length))

/-! ## Bucket counting of read2sdbg stage 2 for one solid edge (C7) -/

/-- Reverse complement of a character list (kmer ReverseComplement:
complement each 2-bit character and reverse the order). -/
def revCompChars (cs : List Nat) : List Nat := (cs.map (fun c => 3 - c)).reverse

/-- Value of the B-character window of cs starting at position s, as selected
by the word shifts of s2_lv0_calc_bucket_size. -/
def windowVal (cs : List Nat) (s B : Nat) : Nat :=
  ((cs.drop s).take B).foldl (fun acc c => acc * 4 + c) 0

/-- Bucket increments of s2_lv0_calc_bucket_size (cx1_read2sdbg_s2.cpp lines
258-275) for one solid (k+1)-mer occurrence: the solid window on the forward
strand always, the reverse strand only when the edge differs from its own
reverse complement, and the left-$/right-$ windows when the occurrence is at
the corresponding boundary of a solid stretch. -/
def s2EdgeBucketIncrements (B : Nat) (edge : List Nat) (isLeftB isRightB : Bool) : List Nat :=
  let rev := revCompChars edge
  let isPalindrome := rev = edge
  ([windowVal edge 1 B] ++ if isPalindrome then [] else [windowVal rev 1 B])
  ++ (if isLeftB then
        [windowVal edge 0 B] ++ (if isPalindrome then [] else [windowVal rev 2 B])
      else [])
  ++ (if isRightB then
        [windowVal edge 2 B] ++ (if isPalindrome then [] else [windowVal rev 0 B])
      else [])

/-! ## Level-2 extractor item fields and the Extract accessors (C10) -/

/-- num_chars_to_copy of lv2_extract_substr (cx1_seq2sdbg.cpp line 739):
kmer_k minus one exactly when the edge overruns the right end of the
sequence. -/
def seqNumCharsToCopy (k L offset : Nat) : Nat := if L < offset + k then k - 1 else k

/-- BWT-predecessor character of lv2_extract_substr (cx1_seq2sdbg.cpp lines
750-774): the sentinel when the k-mer starts at the strand boundary
(offset 0), otherwise the preceding base, complemented on the reverse
strand. -/
def seqPrevChar (bases : List Nat) (L offset strand : Nat) : Nat :=
  if strand = 0 then
    if offset = 0 then kSentinelValue else bases.getD (offset - 1) 0
  else
    if offset = 0 then kSentinelValue else 3 - bases.getD (L - 1 - offset + 1) 0

/-- Multiplicity given to a seq2sdbg item (cx1_seq2sdbg.cpp lines 740-743):
non-zero only for fully interior edges. -/
def seqCountingOf (multi L k offset : Nat) : Nat :=
  if 0 < offset ∧ offset + k ≤ L then multi else 0

/-- Last word of a seq2sdbg level-2 item as assembled by lv2_extract_substr
(lines 763-766, 784-787): has-right-char flag at bit
kBWTCharNumBits + kBitsPerMulti_t, the BWT predecessor above the inverted
capped multiplicity. -/
def seqLastWord (k L offset strand multi : Nat) (bases : List Nat) : Nat :=
  ((if seqNumCharsToCopy k L offset = k then 1 else 0) <<< (kBWTCharNumBits + kBitsPerMulti))
    ||| ((seqPrevChar bases L offset strand) <<< kBitsPerMulti)
    ||| (kMaxMulti - seqCountingOf multi L k offset)

/-- Extract_b of cx1_seq2sdbg.cpp (lines 89-91). -/
def seqExtract_b (w : Nat) : Nat := (w >>> kBitsPerMulti) &&& ((1 <<< kBWTCharNumBits) - 1)

/-- Has-right-char bit tested by Extract_a of cx1_seq2sdbg.cpp (line 79). -/
def seqExtract_aBit (w : Nat) : Nat := (w >>> (kBWTCharNumBits + kBitsPerMulti)) &&& 1

/-- Extract_a of cx1_seq2sdbg.cpp (lines 78-87): the base at index k-1 of
the k-mer (masked with kEdgeCharMask = 3) when the has-right-char bit is
set, the sentinel otherwise. -/
def seqExtract_a (w aChar : Nat) : Nat :=
  if seqExtract_aBit w = 1 then aChar &&& 3 else kSentinelValue

/-- num_chars_to_copy of s2_lv2_extract_substr (cx1_read2sdbg_s2.cpp lines
536-549 and 561-573), by strand and edge type (0 = left $, 1 = solid,
2 = right $). -/
def s2NumCharsToCopy (k strand etype : Nat) : Nat :=
  if strand = 0 then (if etype = 2 then k - 1 else k)
  else (if etype = 0 then k - 1 else k)

/-- BWT-predecessor character of s2_lv2_extract_substr by strand and edge
type. -/
def s2PrevChar (bases : List Nat) (k offset strand etype : Nat) : Nat :=
  if strand = 0 then
    if etype = 0 then kSentinelValue
    else if etype = 1 then bases.getD offset 0
    else bases.getD (offset + 1) 0
  else
    if etype = 0 then 3 - bases.getD (offset + k - 1) 0
    else if etype = 1 then 3 - bases.getD (offset + k) 0
    else kSentinelValue

/-- Last word of a read2sdbg stage-2 level-2 item (cx1_read2sdbg_s2.cpp
lines 557-559, 582-584): has-right-char flag at bit kBWTCharNumBits, the
BWT predecessor in the low bits. -/
def s2LastWord (k strand etype offset : Nat) (bases : List Nat) : Nat :=
  ((if s2NumCharsToCopy k strand etype = k then 1 else 0) <<< kBWTCharNumBits)
    ||| s2PrevChar bases k offset strand etype

/-- Extract_b of cx1_read2sdbg_s2.cpp (lines 95-97). -/
def s2Extract_b (w : Nat) : Nat := w &&& ((1 <<< kBWTCharNumBits) - 1)

/-- Has-right-char bit tested by Extract_a of cx1_read2sdbg_s2.cpp (line 85). -/
def s2Extract_aBit (w : Nat) : Nat := (w >>> kBWTCharNumBits) &&& 1

/-- Extract_a of cx1_read2sdbg_s2.cpp (lines 84-93). -/
def s2Extract_a (w aChar : Nat) : Nat :=
  if s2Extract_aBit w = 1 then aChar &&& 3 else kSentinelValue

/-! ## Mercy-edge augmenter (C8)

GenMercyEdges (cx1_seq2sdbg.cpp lines 313-351): after the has_in/has_out
bitmaps of a read are computed, the mercy-adding loop walks the positions
left to right, switching on has_in[i] | (has_out[i] << 1) and maintaining
last_no_out; the emitted (k+1)-mers are appended to the packed store with
multiplicity 1 (lines 346-351) inside read_seq_and_prepare. -/

/-- Position classifiers over the has_in/has_out bitmaps. -/
def inOnlyAt (hin hout : Nat → Bool) (m : Nat) : Prop := hin m = true ∧ hout m = false

def outOnlyAt (hin hout : Nat → Bool) (m : Nat) : Prop := hin m = false ∧ hout m = true

def neitherAt (hin hout : Nat → Bool) (m : Nat) : Prop := hin m = false ∧ hout m = false

/-- Mercy-adding loop with an explicit iteration budget (the loop runs at
most n - i more steps, so the budget never runs out before the index check
fails): case 1 remembers last_no_out = i, case 2 appends the mercy
positions last_no_out..i-1 when last_no_out is set and clears it, case 3
clears it, case 0 does nothing. -/
def mercyScanAux (hin hout : Nat → Bool) (n : Nat) :
    Nat → Nat → Option Nat → List Nat → List Nat
  | 0, _, _, acc => acc
  | fuel + 1, i, lastNoOut, acc =>
    if i < n then
      match hin i, hout i with
      | true, false => mercyScanAux hin hout n fuel (i + 1) (some i) acc
      | false, true =>
        mercyScanAux hin hout n fuel (i + 1) none
          (acc ++ (match lastNoOut with
                   | some l => List.range' l (i - l)
                   | none => []))
      | true, true => mercyScanAux hin hout n fuel (i + 1) none acc
      | false, false => mercyScanAux hin hout n fuel (i + 1) lastNoOut acc
    else acc

/-- Positions whose (k+1)-mers are emitted as mercy edges for one read with
n = read_len - k + 1 window positions. -/
def mercyPositions (hin hout : Nat → Bool) (n : Nat) : List Nat :=
  mercyScanAux hin hout n n 0 none []

/-- Mercy edges of one read: the (k+1)-mer starting at each emitted
position (GenericKmer(..., start + j, kmer_k + 1) at line 326). -/
def mercyEdgesOf (k : Nat) (read : List Nat) (hin hout : Nat → Bool) (n : Nat) :
    List (List Nat) :=
  (mercyPositions hin hout n).map (fun j => (read.drop j).take (k + 1))

/-- Multiplicity vector after GenMercyEdges (line 351): one entry 1 is
appended per mercy edge. -/
def multisAfterMercy (multis : List Nat) (numMercy : Nat) : List Nat :=
  multis ++ List.replicate numMercy 1

/-- Modelled from the spec: the CX1 driver (cx1.h, absent from src/) runs
read_seq_and_prepare - which appends the mercy edges to the packed
sequence store - before lv0_calc_bucket_size, so the bucket-size
preprocessor reads the store already extended with the mercy edges. -/
def packageForBucketSizing (pkg newEdges : List (List Nat)) : List (List Nat) :=
  pkg ++ newEdges

/-- Appends that the scan can still produce from state (i, lastNoOut): an
outgoing-only position i2 ahead with only neither-positions in between
releases the pending range lastNoOut..i2-1. -/
def futureFromState (hin hout : Nat → Bool) (n i : Nat) (lastNoOut : Option Nat)
    (j : Nat) : Prop :=
  match lastNoOut with
  | some l =>
    l ≤ j ∧ ∃ i2, i ≤ i2 ∧ i2 < n ∧ j < i2 ∧ outOnlyAt hin hout i2 ∧
      ∀ m, i ≤ m → m < i2 → neitherAt hin hout m
  | none => False

/-- Appends produced by an incoming-only/outgoing-only pair entirely ahead
of position i. -/
def futureFresh (hin hout : Nat → Bool) (n i j : Nat) : Prop :=
  ∃ l i2, i ≤ l ∧ l ≤ j ∧ j < i2 ∧ i2 < n ∧ inOnlyAt hin hout l ∧
    outOnlyAt hin hout i2 ∧ ∀ m, l < m → m < i2 → neitherAt hin hout m

/-! ## SdBG emitter: grouping, marking and label decisions (C1, C2, C6)

lv2_output of cx1_seq2sdbg.cpp (lines 872-1008) and s2_lv2_output of
cx1_read2sdbg_s2.cpp (lines 662-820) share the marking and label logic
verbatim; the model works on one (k-1)-mer group of items, each reduced to
its two extracted symbols. -/

/-- Level-2 item as the emitter reads it: a = Extract_a (successor symbol,
4 = sentinel) and b = Extract_b (BWT predecessor, 4 = sentinel). -/
structure SItem where
  a : Nat
  b : Nat
deriving DecidableEq

/-- Sub-group of lv2_output: a maximal run of consecutive items with equal
(a, b); i and j are its item index bounds. -/
structure SRun where
  i : Nat
  j : Nat
  a : Nat
  b : Nat
deriving DecidableEq

/-- Test of the inner j-loop of lv2_output: the next item continues the
current sub-group when both extracted symbols agree. -/
def matchAB (it p : SItem) : Bool := p.a == it.a && p.b == it.b

/-- Number of further items of the current sub-group beyond its first. -/
def runLen (it : SItem) (rest : List SItem) : Nat :=
  (rest.takeWhile (matchAB it)).length

/-- Decomposition of a group into its maximal (a, b) sub-groups, with an
iteration budget (every step consumes at least one item, so the budget
l.length never runs out). -/
def runsFromAux : Nat → Nat → List SItem → List SRun
  | 0, _, _ => []
  | _ + 1, _, [] => []
  | fuel + 1, i, it :: rest =>
    ⟨i, i + 1 + runLen it rest, it.a, it.b⟩ ::
      runsFromAux fuel (i + 1 + runLen it rest) (rest.drop (runLen it rest))

/-- Sub-groups of a group whose first item has index i. -/
def runsFrom (i : Nat) (l : List SItem) : List SRun := runsFromAux l.length i l

/-- State of the marking loop of lv2_output (lines 895-910): the
has_solid_a / has_solid_b bitmasks and the last_a array; none models a
not-yet-written last_a entry. -/
structure MarkSt where
  hsa : Nat
  hsb : Nat
  la : Nat → Option Nat

/-- One iteration of the marking loop at item index i: a solid item first
sets its bits in both masks, and last_a[a] is overwritten when the item has
a real successor and either a real predecessor or a still-unsolid a. -/
def markStep (s : MarkSt) (i : Nat) (it : SItem) : MarkSt :=
  let s1 := if it.a ≠ 4 ∧ it.b ≠ 4 then
    { s with hsa := s.hsa ||| (1 <<< it.a), hsb := s.hsb ||| (1 <<< it.b) }
  else s
  if it.a ≠ 4 ∧ (it.b ≠ 4 ∨ ¬ hasBit s1.hsa it.a) then
    { s1 with la := fun x => if x = it.a then some i else s1.la x }
  else s1

/-- Marking loop from state s and item index i. -/
def markFrom (s : MarkSt) (i : Nat) : List SItem → MarkSt
  | [] => s
  | it :: rest => markFrom (markStep s i it) (i + 1) rest

/-- Marking pass of lv2_output over one (k-1)-mer group. -/
def markGroup (l : List SItem) : MarkSt := markFrom ⟨0, 0, fun _ => none⟩ 0 l

/-- Position where the final write into last_a[v] lands, threading the
has_solid_a bits h exactly as markStep does; used to reason about the
marking loop. -/
def lastWAt (h v : Nat) : List SItem → Option Nat
  | [] => none
  | it :: rest =>
    match lastWAt (if it.a ≠ 4 ∧ it.b ≠ 4 then h ||| (1 <<< it.a) else h) v rest with
    | some m => some (m + 1)
    | none =>
      if it.a = v ∧ it.a ≠ 4 ∧
          (it.b ≠ 4 ∨ ¬ hasBit (if it.a ≠ 4 ∧ it.b ≠ 4 then h ||| (1 <<< it.a) else h) v)
      then some 0 else none

/-- Occurrence of a solid item with successor v among the first n items. -/
def solidInPre (l : List SItem) (v n : Nat) : Prop :=
  ∃ p ∈ l.take n, p.a = v ∧ p.b ≠ 4

/-- Positional form of the write condition of the marking loop at index m:
the item carries successor v, and either its predecessor is real or a is
not yet solid after processing the item (h is the initial bitmask). -/
def writeGuardAt (h : Nat) (l : List SItem) (v m : Nat) : Prop :=
  ∃ hm : m < l.length, (l.get ⟨m, hm⟩).a = v ∧ v ≠ 4 ∧
    ((l.get ⟨m, hm⟩).b ≠ 4 ∨ (hasBit h v = false ∧ ¬ solidInPre l v (m + 1)))

/-- Suppression test of lv2_output (lines 930-943): a $-successor sub-group
with solid b, or a $-predecessor sub-group with solid a, emits nothing. -/
def suppressedRun (ms : MarkSt) (a b : Nat) : Prop :=
  (a = 4 ∧ hasBit ms.hsb b) ∨ (b = 4 ∧ hasBit ms.hsa a)

instance (ms : MarkSt) (a b : Nat) : Decidable (suppressedRun ms a b) := by
  unfold suppressedRun
  infer_instance

/-- Output pass of lv2_output over the sub-group decomposition, threading
outputed_b (lines 912-951): every sub-group not suppressed emits one record
with W = 0 for b = $, else b+1 on the first emitted occurrence of this b in
the group and b+5 afterwards; LAST = 1 iff last_a[a] holds the sub-group's
last item index; IsDollar = 1 iff a = $. -/
def emitRuns (ms : MarkSt) (outed : Nat) : List SRun → List SRecord
  | [] => []
  | r :: rs =>
    if suppressedRun ms r.a r.b then emitRuns ms outed rs
    else
      { i := r.i, j := r.j, a := r.a, b := r.b
        w := if r.b = 4 then 0 else if hasBit outed r.b then r.b + 5 else r.b + 1
        last := if r.a = 4 then 0 else if ms.la r.a = some (r.j - 1) then 1 else 0
        isDollar := if r.a = 4 then 1 else 0 } ::
        emitRuns ms (outed ||| (1 <<< r.b)) rs

/-- Output pass in the shape the source writes it: the outer i-loop finds
the extent of the current sub-group, decides suppression and labels, then
advances to the next sub-group; the budget l.length never runs out. -/
def emitFromAux (ms : MarkSt) : Nat → Nat → Nat → List SItem → List SRecord
  | 0, _, _, _ => []
  | _ + 1, _, _, [] => []
  | fuel + 1, outed, i, it :: rest =>
    if suppressedRun ms it.a it.b then
      emitFromAux ms fuel outed (i + 1 + runLen it rest) (rest.drop (runLen it rest))
    else
      { i := i, j := i + 1 + runLen it rest, a := it.a, b := it.b
        w := if it.b = 4 then 0 else if hasBit outed it.b then it.b + 5 else it.b + 1
        last := if it.a = 4 then 0
          else if ms.la it.a = some (i + 1 + runLen it rest - 1) then 1 else 0
        isDollar := if it.a = 4 then 1 else 0 } ::
        emitFromAux ms fuel (outed ||| (1 <<< it.b)) (i + 1 + runLen it rest)
          (rest.drop (runLen it rest))

/-- Output pass started at item index i with duplicate mask outed. -/
def emitFrom (ms : MarkSt) (outed i : Nat) (l : List SItem) : List SRecord :=
  emitFromAux ms l.length outed i l

/-- Emission of one (k-1)-mer group: the marking pass, then the output pass
with outputed_b starting at zero and item indices from zero. -/
def emitGroup (l : List SItem) : List SRecord := emitFrom (markGroup l) 0 0 l

/-- Total LAST count over a list of (k-1)-mer groups, each tagged with its
suffix. -/
def numOnesInLast (gs : List (Nat × List SItem)) : Nat :=
  (gs.map (fun g => (emitGroup g.2).countP (fun r => r.last == 1))).sum

/-- Pairs (suffix, a) of all output records over a list of groups. -/
def outputPairs (gs : List (Nat × List SItem)) : List (Nat × Nat) :=
  (gs.map (fun g => (emitGroup g.2).map (fun r => (g.1, r.a)))).flatten

/-! ## Theorems -/

/-- Helper: element of an appended list at the length of the first part. -/
theorem getD_append_self_length (l1 l2 : List Int) (d : Int) :
    (l1 ++ l2).getD l1.length d = l2.getD 0 d := by
  induction l1 with
  | nil => rfl
  | cons x xs ih => simpa using ih

/-- Helper: the side table only grows during filling. -/
theorem fillOffsets_special_extends (dlimit : Int) :
    ∀ (offs : List Int) (prev : Int) (special slots spF : List Int),
      fillOffsets dlimit prev special offs = some (slots, spF) →
      ∃ t, spF = special ++ t := by
  intro offs
  induction offs with
  | nil =>
    intro prev special slots spF h
    simp only [fillOffsets, Option.some.injEq, Prod.mk.injEq] at h
    exact ⟨[], by simp [← h.2]⟩
  | cons fo rest ih =>
    intro prev special slots spF h
    simp only [fillOffsets] at h
    by_cases h1 : dlimit < fo - prev
    · simp only [if_pos h1] at h
      cases hrec : fillOffsets dlimit fo (special ++ [fo]) rest with
      | none => rw [hrec] at h; exact absurd h (by simp)
      | some p =>
        rw [hrec] at h
        obtain ⟨sl', sp'⟩ := p
        simp only [Option.some.injEq, Prod.mk.injEq] at h
        obtain ⟨t, ht⟩ := ih fo (special ++ [fo]) sl' sp' hrec
        exact ⟨[fo] ++ t, by rw [← h.2, ht]; simp⟩
    · simp only [if_neg h1] at h
      by_cases h2 : 0 ≤ fo - prev
      · simp only [if_pos h2] at h
        cases hrec : fillOffsets dlimit fo special rest with
        | none => rw [hrec] at h; exact absurd h (by simp)
        | some p =>
          rw [hrec] at h
          obtain ⟨sl', sp'⟩ := p
          simp only [Option.some.injEq, Prod.mk.injEq] at h
          obtain ⟨t, ht⟩ := ih fo special sl' sp' hrec
          exact ⟨t, by rw [← h.2, ht]⟩
      · rw [if_neg h2] at h
        exact Option.noConfusion h

/-- C3: replaying the slots written by the level-1 filler for one bucket and
worker - starting from the differential base, adding each non-negative slot,
and substituting the side-table entry at -(slot)-1 for each negative slot -
reproduces exactly the encoded sequence of absolute offsets.  The decode may
run against any later extension of the side table, as other workers append
behind the recorded indices. -/
theorem lv1_differential_roundtrip (dlimit : Int) :
    ∀ (offs : List Int) (base : Int) (special slots spF ext : List Int),
      fillOffsets dlimit base special offs = some (slots, spF) →
      decodeSlots (spF ++ ext) base slots = offs := by
  intro offs
  induction offs with
  | nil =>
    intro base special slots spF ext h
    simp only [fillOffsets, Option.some.injEq, Prod.mk.injEq] at h
    rw [← h.1]
    rfl
  | cons fo rest ih =>
    intro base special slots spF ext h
    simp only [fillOffsets] at h
    by_cases h1 : dlimit < fo - base
    · simp only [if_pos h1] at h
      cases hrec : fillOffsets dlimit fo (special ++ [fo]) rest with
      | none => rw [hrec] at h; exact absurd h (by simp)
      | some p =>
        rw [hrec] at h
        obtain ⟨sl', sp'⟩ := p
        simp only [Option.some.injEq, Prod.mk.injEq] at h
        obtain ⟨hs, hsp⟩ := h
        rw [hsp] at hrec
        obtain ⟨t, ht⟩ := fillOffsets_special_extends dlimit rest fo (special ++ [fo]) sl' spF hrec
        rw [← hs]
        have hneg : ¬ (0 : Int) ≤ -(special.length : Int) - 1 := by
          have : (0 : Int) ≤ (special.length : Int) := Int.ofNat_nonneg _
          omega
        have hidx : (-1 - (-(special.length : Int) - 1)).toNat = special.length := by
          omega
        have hlook : (spF ++ ext).getD (-1 - (-(special.length : Int) - 1)).toNat 0 = fo := by
          rw [hidx, ht]
          have : special ++ [fo] ++ t ++ ext = special ++ ([fo] ++ (t ++ ext)) := by simp
          rw [this, getD_append_self_length]
          rfl
        simp only [decodeSlots, if_neg hneg, hlook]
        exact congrArg (fo :: ·) (ih fo (special ++ [fo]) sl' spF ext hrec)
    · simp only [if_neg h1] at h
      by_cases h2 : 0 ≤ fo - base
      · simp only [if_pos h2] at h
        cases hrec : fillOffsets dlimit fo special rest with
        | none => rw [hrec] at h; exact absurd h (by simp)
        | some p =>
          rw [hrec] at h
          obtain ⟨sl', sp'⟩ := p
          simp only [Option.some.injEq, Prod.mk.injEq] at h
          obtain ⟨hs, hsp⟩ := h
          rw [hsp] at hrec
          rw [← hs]
          have hfo : base + (fo - base) = fo := by omega
          simp only [decodeSlots, if_pos h2, hfo]
          exact congrArg (fo :: ·) (ih fo special sl' spF ext hrec)
      · rw [if_neg h2] at h
        exact Option.noConfusion h

/-- Witness for C3 on a concrete stream: base 0, limit 3, offsets
[1, 2, 10, 11]; the differential 8 exceeds the limit and goes through the
side table, and decoding reproduces the offsets. -/
theorem lv1_differential_roundtrip_witness :
    fillOffsets 3 0 [] [1, 2, 10, 11] = some ([1, 1, -1, 1], [10]) ∧
    decodeSlots ([10] ++ []) 0 [1, 1, -1, 1] = [1, 2, 10, 11] := by
  refine ⟨by decide, lv1_differential_roundtrip 3 [1, 2, 10, 11] 0 [] [1, 1, -1, 1] [10] [] (by decide)⟩

/-- Helper: offsPrev steps through a cons cell. -/
theorem offsPrev_cons (base fo : Int) (rest : List Int) (t : Nat) :
    offsPrev base (fo :: rest) (t + 1) = offsPrev fo rest t := by
  cases t with
  | zero => rfl
  | succ t => simp [offsPrev]

/-- C4, counterexample: with limit 10, previous offset 5 and next absolute
offset 3 the differential is -2; the claim says every differential outside
[0, DIFF_LIMIT] - including a negative one - pushes the absolute offset into
the side table, but the source only pushes when differential > DIFF_LIMIT
and a negative differential instead fails assert(differential >= 0): the
filler produces no slot and pushes nothing. -/
theorem lv1_fill_negative_differential_counterexample :
    fillOffsets 10 5 [] [3] = none ∧
    ∀ slots spF : List Int, ¬ fillOffsets 10 5 [] [3] = some (slots, spF) := by
  refine ⟨by decide, ?_⟩
  intro slots spF h
  rw [show fillOffsets 10 5 [] [3] = none from by decide] at h
  exact Option.noConfusion h

/-- C4, amended: for every edge occurrence, if the differential from the
previous same-worker offset in the bucket satisfies 0 <= differential <=
DIFF_LIMIT it is stored as the non-negative slot value; if differential >
DIFF_LIMIT the absolute offset is pushed into the side table and the slot
stores -(index_in_side_table + 1); a negative differential is an assertion
failure (assert(differential >= 0)) and nothing is stored or pushed. -/
theorem lv1_fill_step_rule (dlimit : Int) (hdl : 0 ≤ dlimit) :
    ∀ (offs : List Int) (base : Int) (special : List Int),
      (∀ slots spF, fillOffsets dlimit base special offs = some (slots, spF) →
        slots.length = offs.length ∧
        ∀ t, t < offs.length →
          0 ≤ offs.getD t 0 - offsPrev base offs t ∧
          (offs.getD t 0 - offsPrev base offs t ≤ dlimit →
            slots.getD t 0 = offs.getD t 0 - offsPrev base offs t) ∧
          (dlimit < offs.getD t 0 - offsPrev base offs t →
            slots.getD t 0 < 0 ∧
            spF.getD (-1 - slots.getD t 0).toNat 0 = offs.getD t 0)) ∧
      (fillOffsets dlimit base special offs = none →
        ∃ t, t < offs.length ∧ offs.getD t 0 - offsPrev base offs t < 0) := by
  intro offs
  induction offs with
  | nil =>
    intro base special
    constructor
    · intro slots spF h
      simp only [fillOffsets, Option.some.injEq, Prod.mk.injEq] at h
      refine ⟨by rw [← h.1], ?_⟩
      intro t ht
      exact absurd ht (by simp)
    · intro h
      exact absurd h (by simp [fillOffsets])
  | cons fo rest ih =>
    intro base special
    constructor
    · intro slots spF h
      simp only [fillOffsets] at h
      by_cases h1 : dlimit < fo - base
      · rw [if_pos h1] at h
        cases hrec : fillOffsets dlimit fo (special ++ [fo]) rest with
        | none => rw [hrec] at h; exact Option.noConfusion h
        | some p =>
          rw [hrec] at h
          obtain ⟨sl', sp'⟩ := p
          simp only [Option.some.injEq, Prod.mk.injEq] at h
          obtain ⟨hs, hsp⟩ := h
          rw [hsp] at hrec
          have hrest := ((ih fo (special ++ [fo])).1 sl' spF hrec)
          refine ⟨by rw [← hs]; simp [hrest.1], ?_⟩
          intro t ht
          cases t with
          | zero =>
            have hp : offsPrev base (fo :: rest) 0 = base := rfl
            have hget : (fo :: rest).getD 0 0 = fo := rfl
            rw [hp, hget, ← hs]
            refine ⟨by omega, fun hle => absurd hle (by omega), fun _ => ?_⟩
            have hneg : (-(special.length : Int) - 1) < 0 := by
              have : (0 : Int) ≤ (special.length : Int) := Int.ofNat_nonneg _
              omega
            have hidx : (-1 - (-(special.length : Int) - 1)).toNat = special.length := by omega
            obtain ⟨tl, htl⟩ := fillOffsets_special_extends dlimit rest fo (special ++ [fo]) sl' spF hrec
            have hlook : spF.getD special.length 0 = fo := by
              rw [htl]
              have : special ++ [fo] ++ tl = special ++ ([fo] ++ tl) := by simp
              rw [this, getD_append_self_length]
              rfl
            simp only [List.getD_cons_zero, hidx]
            exact ⟨hneg, hlook⟩
          | succ t =>
            have ht' : t < rest.length := by simpa using ht
            have := hrest.2 t ht'
            rw [offsPrev_cons]
            simpa only [List.getD_cons_succ, ← hs] using this
      · rw [if_neg h1] at h
        by_cases h2 : 0 ≤ fo - base
        · rw [if_pos h2] at h
          cases hrec : fillOffsets dlimit fo special rest with
          | none => rw [hrec] at h; exact Option.noConfusion h
          | some p =>
            rw [hrec] at h
            obtain ⟨sl', sp'⟩ := p
            simp only [Option.some.injEq, Prod.mk.injEq] at h
            obtain ⟨hs, hsp⟩ := h
            rw [hsp] at hrec
            have hrest := ((ih fo special).1 sl' spF hrec)
            refine ⟨by rw [← hs]; simp [hrest.1], ?_⟩
            intro t ht
            cases t with
            | zero =>
              have hp : offsPrev base (fo :: rest) 0 = base := rfl
              have hget : (fo :: rest).getD 0 0 = fo := rfl
              rw [hp, hget, ← hs]
              exact ⟨h2, fun _ => rfl, fun hgt => absurd hgt (by omega)⟩
            | succ t =>
              have ht' : t < rest.length := by simpa using ht
              have := hrest.2 t ht'
              rw [offsPrev_cons]
              simpa only [List.getD_cons_succ, ← hs] using this
        · rw [if_neg h2] at h
          exact Option.noConfusion h
    · intro h
      simp only [fillOffsets] at h
      by_cases h1 : dlimit < fo - base
      · rw [if_pos h1] at h
        cases hrec : fillOffsets dlimit fo (special ++ [fo]) rest with
        | none =>
          obtain ⟨t, ht, hneg⟩ := (ih fo (special ++ [fo])).2 hrec
          refine ⟨t + 1, by simpa using ht, ?_⟩
          rw [offsPrev_cons]
          simpa only [List.getD_cons_succ] using hneg
        | some p => rw [hrec] at h; obtain ⟨sl', sp'⟩ := p; exact Option.noConfusion h
      · rw [if_neg h1] at h
        by_cases h2 : 0 ≤ fo - base
        · rw [if_pos h2] at h
          cases hrec : fillOffsets dlimit fo special rest with
          | none =>
            obtain ⟨t, ht, hneg⟩ := (ih fo special).2 hrec
            refine ⟨t + 1, by simpa using ht, ?_⟩
            rw [offsPrev_cons]
            simpa only [List.getD_cons_succ] using hneg
          | some p => rw [hrec] at h; obtain ⟨sl', sp'⟩ := p; exact Option.noConfusion h
        · exact ⟨0, by simp, by rw [show offsPrev base (fo :: rest) 0 = base from rfl]; simpa using h2⟩

/-- Witness for the amended C4 on a concrete stream exercising both the
store and the push cases. -/
theorem lv1_fill_step_rule_witness :
    (fillOffsets 3 0 [] [1, 10] = some ([1, -1], [10])) ∧
    ([1, -1] : List Int).length = ([1, 10] : List Int).length ∧
    (0 : Int) ≤ 10 - 1 ∧ (3 : Int) < 10 - 1 := by
  have h := (lv1_fill_step_rule 3 (by decide) [1, 10] 0 []).1 [1, -1] [10] (by decide)
  exact ⟨by decide, h.1, (h.2 1 (by decide)).1, by decide⟩

/-- C9: if during the sequential emission the dummy-node counter reaches
kMaxDummyEdges the run aborts fatally with the too-many-tips diagnostic;
otherwise emission runs to completion with the counter increased by the
number of IsDollar records. -/
theorem emitter_too_many_tips_abort (limit : Nat) :
    ∀ (recs : List SRecord) (ndn : Nat), ndn < limit →
      (ndn + recs.countP (fun r => r.isDollar == 1) < limit →
        outputDollarLoop limit recs ndn =
          Except.ok (ndn + recs.countP (fun r => r.isDollar == 1))) ∧
      (limit ≤ ndn + recs.countP (fun r => r.isDollar == 1) →
        outputDollarLoop limit recs ndn = Except.error kTooManyTipsMsg) := by
  intro recs
  induction recs with
  | nil =>
    intro ndn hndn
    constructor
    · intro _
      simp [outputDollarLoop]
    · intro hge
      simp only [List.countP_nil, Nat.add_zero] at hge
      omega
  | cons r rest ih =>
    intro ndn hndn
    by_cases hd : r.isDollar = 1
    · have hc : (r :: rest).countP (fun r => r.isDollar == 1) =
          rest.countP (fun r => r.isDollar == 1) + 1 := by
        simp [List.countP_cons, hd]
      by_cases hlim : limit ≤ ndn + 1
      · constructor
        · intro hlt
          rw [hc] at hlt
          omega
        · intro _
          simp [outputDollarLoop, hd, hlim]
      · have hstep : outputDollarLoop limit (r :: rest) ndn =
            outputDollarLoop limit rest (ndn + 1) := by
          simp [outputDollarLoop, hd, hlim]
        have ihh := ih (ndn + 1) (by omega)
        constructor
        · intro hlt
          rw [hstep, hc] at *
          rw [ihh.1 (by omega)]
          congr 1
          omega
        · intro hge
          rw [hc] at hge
          rw [hstep]
          exact ihh.2 (by omega)
    · have hc : (r :: rest).countP (fun r => r.isDollar == 1) =
          rest.countP (fun r => r.isDollar == 1) := by
        simp [List.countP_cons, hd]
      have hstep : outputDollarLoop limit (r :: rest) ndn =
          outputDollarLoop limit rest ndn := by
        simp [outputDollarLoop, hd]
      rw [hstep, hc]
      exact ih ndn hndn

/-- Witness for C9: with kMaxDummyEdges = 2 and two IsDollar records the run
aborts with the too-many-tips diagnostic. -/
theorem emitter_too_many_tips_abort_witness :
    (0 : Nat) < 2 ∧
    outputDollarLoop 2
      [⟨0, 1, 4, 0, 0, 0, 1⟩, ⟨1, 2, 4, 1, 0, 0, 1⟩] 0 =
      Except.error kTooManyTipsMsg := by
  refine ⟨by decide, ?_⟩
  exact (emitter_too_many_tips_abort 2
    [⟨0, 1, 4, 0, 0, 0, 1⟩, ⟨1, 2, 4, 1, 0, 0, 1⟩] 0 (by decide)).2 (by decide)

/-- Helper: the rolling-key loop visits exactly the positions i, i+1, ... up
to the last index satisfying the guard i + k <= L + B. -/
theorem seqKeyLoopAux_positions (bb nB L B k : Nat) (digit : Nat → Nat) :
    ∀ (fuel i key : Nat), L + B + 1 - (i + k) ≤ fuel →
      (seqKeyLoopAux bb nB L B k digit fuel i key).map Prod.fst =
        List.range' i (L + B + 1 - (i + k)) := by
  intro fuel
  induction fuel with
  | zero =>
    intro i key h
    rw [show L + B + 1 - (i + k) = 0 from by omega]
    rfl
  | succ f ihf =>
    intro i key h
    by_cases hg : i + k ≤ L + B
    · have hc : L + B + 1 - (i + k) = (L + B + 1 - (i + 1 + k)) + 1 := by omega
      rw [seqKeyLoopAux, if_pos hg, List.map_cons, ihf (i + 1) _ (by omega), hc,
        List.range'_succ]
    · rw [seqKeyLoopAux, if_neg hg, show L + B + 1 - (i + k) = 0 from by omega]
      rfl

/-- C5, amended: for a sequence of length L >= k+1 the bucket-size
preprocessor of seq2sdbg increments exactly one bucket counter for each
window start position i in the inclusive range [B-1, L-k+B] - that is
L-k+2 increments per strand, covering all (k+1)-mer edges including the
left-$ and right-$ boundary edges - and no other position contributes.
The claimed upper bound L-k+B-2 is wrong: the loop guard
i - (B-1) + k - 1 <= L runs the window through i = L-k+B. -/
theorem lv0_bucket_window_positions (bb nB B k : Nat) (bases : List Nat)
    (hB : 1 ≤ B) (hL : k + 1 ≤ bases.length) :
    (lv0FwdIncrements bb nB B k bases).map Prod.fst =
      List.range' (B - 1) (bases.length - k + 2) ∧
    (lv0RcIncrements bb nB B k bases).map Prod.fst =
      List.range' (B - 1) (bases.length - k + 2) := by
  unfold lv0FwdIncrements lv0RcIncrements seqKeyLoop
  rw [if_neg (by omega), if_neg (by omega)]
  constructor
  · rw [seqKeyLoopAux_positions bb nB bases.length B k _ _ _ _ (by omega)]
    congr 1
    omega
  · rw [seqKeyLoopAux_positions bb nB bases.length B k _ _ _ _ (by omega)]
    congr 1
    omega

/-- Witness for the amended C5 at B = 8, k = 15 and a sequence of length
16: the window start positions are 7, 8, 9 on both strands. -/
theorem lv0_bucket_window_positions_witness :
    (1 ≤ 8 ∧ 15 + 1 ≤ (List.replicate 16 0 : List Nat).length) ∧
    (lv0FwdIncrements 5 390625 8 15 (List.replicate 16 0)).map Prod.fst =
      List.range' 7 3 := by
  refine ⟨⟨by decide, by decide⟩, ?_⟩
  have h := (lv0_bucket_window_positions 5 390625 8 15 (List.replicate 16 0)
    (by decide) (by decide)).1
  simpa using h

/-- C5, counterexample: with B = 8 (kBucketPrefixLength), k = 15 and a
sequence of length 16, the claimed inclusive range of window start
positions is [7, 16-15+8-2] = [7, 7], yet the loop also increments a
bucket at positions 8 and 9: position 9 = L-k+B receives an increment
although 9 is outside the claimed range. -/
theorem lv0_bucket_window_counterexample :
    9 ∈ (lv0FwdIncrements 5 390625 8 15 (List.replicate 16 0)).map Prod.fst ∧
    ¬ (9 : Nat) ≤ 16 - 15 + 8 - 2 := by decide

/-- C7, counterexample: the seq2sdbg bucket-size preprocessor
(lv0_calc_bucket_size, cited by the claim) has no palindrome test: for the
palindromic (k+1)-mer AAAAAAAATTTTTTTT (k = 15) both strand passes produce
identical increment lists, so the solid palindromic edge receives two
increments - it contributes two items to the batch, not exactly one. -/
theorem palindrome_both_strands_counterexample :
    revCompChars (List.replicate 8 0 ++ List.replicate 8 3) =
      List.replicate 8 0 ++ List.replicate 8 3 ∧
    lv0RcIncrements 5 390625 8 15 (List.replicate 8 0 ++ List.replicate 8 3) =
      lv0FwdIncrements 5 390625 8 15 (List.replicate 8 0 ++ List.replicate 8 3) ∧
    ((lv0FwdIncrements 5 390625 8 15 (List.replicate 8 0 ++ List.replicate 8 3) ++
      lv0RcIncrements 5 390625 8 15 (List.replicate 8 0 ++ List.replicate 8 3)).count
        ((lv0FwdIncrements 5 390625 8 15
          (List.replicate 8 0 ++ List.replicate 8 3)).getD 1 (0, 0)) = 2) := by
  refine ⟨by decide, by decide, by decide⟩

/-- C7, amended: in the read2sdbg stage-2 pipeline a palindromic solid
(k+1)-mer occurrence is extracted on the forward strand only - exactly one
bucket increment (hence one level-2 item) per emitted edge type instead of
the two it would get on both strands - while a non-palindromic occurrence
is extracted on both strands. -/
theorem s2_palindrome_single_strand (B : Nat) (edge : List Nat) (isLeftB isRightB : Bool) :
    (revCompChars edge = edge →
      s2EdgeBucketIncrements B edge isLeftB isRightB =
        [windowVal edge 1 B]
          ++ (if isLeftB then [windowVal edge 0 B] else [])
          ++ (if isRightB then [windowVal edge 2 B] else []) ∧
      (s2EdgeBucketIncrements B edge isLeftB isRightB).length =
        1 + (if isLeftB then 1 else 0) + (if isRightB then 1 else 0)) ∧
    (revCompChars edge ≠ edge →
      (s2EdgeBucketIncrements B edge isLeftB isRightB).length =
        2 * (1 + (if isLeftB then 1 else 0) + (if isRightB then 1 else 0))) := by
  constructor
  · intro hp
    unfold s2EdgeBucketIncrements
    simp only [hp, if_pos rfl]
    cases isLeftB <;> cases isRightB <;> simp
  · intro hp
    unfold s2EdgeBucketIncrements
    simp only [if_neg hp]
    cases isLeftB <;> cases isRightB <;> simp [hp]

/-- Witness for the amended C7 at the palindromic edge ACGT with both
boundary variants active: a single forward-strand increment per edge type. -/
theorem s2_palindrome_single_strand_witness :
    revCompChars [0, 1, 2, 3] = [0, 1, 2, 3] ∧
    (s2EdgeBucketIncrements 2 [0, 1, 2, 3] true true).length = 3 := by
  refine ⟨by decide, ?_⟩
  have h := ((s2_palindrome_single_strand 2 [0, 1, 2, 3] true true).1 (by decide)).2
  simpa using h

/-- Helper: shifting left distributes over bitwise or. -/
theorem or_shiftLeft_distrib (a b s : Nat) : (a ||| b) <<< s = a <<< s ||| b <<< s := by
  apply Nat.eq_of_testBit_eq
  intro j
  simp only [Nat.testBit_shiftLeft, Nat.testBit_or]
  by_cases h : s ≤ j
  · simp [ge_iff_le, h]
  · simp [ge_iff_le, h]

/-- Helper: the high field of a packed word is recovered by shifting the low
field away. -/
theorem shift_or_recover_hi (hi lo s : Nat) (hlo : lo < 2 ^ s) :
    (hi <<< s ||| lo) >>> s = hi := by
  apply Nat.eq_of_testBit_eq
  intro j
  rw [Nat.testBit_shiftRight, Nat.testBit_or, Nat.testBit_shiftLeft]
  have hlo' : lo.testBit (s + j) = false :=
    Nat.testBit_eq_false_of_lt (lt_of_lt_of_le hlo (Nat.pow_le_pow_right (by omega) (by omega)))
  have hge : s + j ≥ s := by omega
  simp [hlo', hge]

/-- Helper: the low field of a packed word is recovered by the low mask. -/
theorem or_low_mask (hi lo s : Nat) (hlo : lo < 2 ^ s) :
    (hi <<< s ||| lo) &&& (2 ^ s - 1) = lo := by
  apply Nat.eq_of_testBit_eq
  intro j
  rw [Nat.testBit_and, Nat.testBit_or, Nat.testBit_shiftLeft, Nat.testBit_two_pow_sub_one]
  by_cases hj : j < s
  · have : ¬ j ≥ s := by omega
    simp [hj, this]
  · have hlo' : lo.testBit j = false :=
      Nat.testBit_eq_false_of_lt (lt_of_lt_of_le hlo (Nat.pow_le_pow_right (by omega) (by omega)))
    simp [hj, hlo']

/-- Helper: list entries bounded by four stay bounded under getD. -/
theorem getD_lt_four : ∀ (bases : List Nat), (∀ c ∈ bases, c < 4) →
    ∀ i, bases.getD i 0 < 4
  | [], _, i => by simp [List.getD]
  | c :: cs, h, 0 => by simpa using h c (by simp)
  | c :: cs, h, (i + 1) => by
    simpa using getD_lt_four cs (fun x hx => h x (by simp [hx])) i

/-- Helper: the packed word of a level-2 item yields back its fields. -/
theorem packedWord_fields (f p c : Nat) (hf : f ≤ 1) (hp : p < 8) (hc : c < 2 ^ 16) :
    ((f <<< 19 ||| p <<< 16 ||| c) >>> 16) &&& 7 = p ∧
    ((f <<< 19 ||| p <<< 16 ||| c) >>> 19) &&& 1 = f := by
  have h1 : (f <<< 3) <<< 16 = f <<< 19 := (Nat.shiftLeft_add f 3 16).symm
  have hrepack : (f <<< 3 ||| p) <<< 16 ||| c = f <<< 19 ||| p <<< 16 ||| c := by
    rw [or_shiftLeft_distrib, h1]
  constructor
  · rw [← hrepack, shift_or_recover_hi _ _ 16 hc,
      show (7 : Nat) = 2 ^ 3 - 1 from rfl, or_low_mask f p 3 hp]
  · rw [← hrepack, show (19 : Nat) = 16 + 3 from rfl, Nat.shiftRight_add,
      shift_or_recover_hi _ _ 16 hc, shift_or_recover_hi f p 3 hp,
      Nat.and_one_is_mod]
    omega

/-- Helper: the packed word of a stage-2 item yields back its two fields. -/
theorem s2PackedWord_fields (f p : Nat) (hf : f ≤ 1) (hp : p < 8) :
    (f <<< 3 ||| p) &&& 7 = p ∧ ((f <<< 3 ||| p) >>> 3) &&& 1 = f := by
  constructor
  · rw [show (7 : Nat) = 2 ^ 3 - 1 from rfl, or_low_mask f p 3 hp]
  · rw [shift_or_recover_hi f p 3 hp, Nat.and_one_is_mod]
    omega

/-- C10: every level-2 item produced by either extractor has at least one
non-sentinel symbol among Extract_a and Extract_b.  In seq2sdbg this rests
on every processed sequence having length at least k+1: the has-right-char
flag is clear only when offset + k exceeds the length, which forces
offset > 0, so the stored BWT predecessor is a real base; in read2sdbg
stage 2 the left-$ and right-$ edge types are distinct, so the two sentinel
conditions cannot meet.  Consequently the emitter assertions
assert(b != kSentinelValue) under a == $ and assert(a != kSentinelValue)
under b == $ never fail on extractor output. -/
theorem extractor_items_have_one_real_symbol
    (k L offset strand etype multi aChar : Nat) (bases : List Nat)
    (hL : k + 1 ≤ L) (_hmul : multi ≤ kMaxMulti) (hb : ∀ c ∈ bases, c < 4)
    (_het : etype < 3) :
    (¬ (seqExtract_a (seqLastWord k L offset strand multi bases) aChar = kSentinelValue ∧
        seqExtract_b (seqLastWord k L offset strand multi bases) = kSentinelValue)) ∧
    (¬ (s2Extract_a (s2LastWord k strand etype offset bases) aChar = kSentinelValue ∧
        s2Extract_b (s2LastWord k strand etype offset bases) = kSentinelValue)) := by
  have h4 := getD_lt_four bases hb
  constructor
  · -- seq2sdbg pipeline
    have hprev8 : seqPrevChar bases L offset strand < 8 := by
      unfold seqPrevChar kSentinelValue
      by_cases hs : strand = 0
      · by_cases ho : offset = 0
        · simp [hs, ho]
        · simp only [hs, ho, if_pos rfl, if_neg ho, if_true]
          exact lt_trans (h4 _) (by norm_num)
      · by_cases ho : offset = 0
        · simp [hs, ho]
        · simp only [if_neg hs, if_neg ho]
          omega
    have hcnt : kMaxMulti - seqCountingOf multi L k offset < 2 ^ 16 := by
      unfold kMaxMulti
      omega
    have hfle : (if seqNumCharsToCopy k L offset = k then 1 else 0) ≤ 1 := by
      split <;> omega
    have hw : seqLastWord k L offset strand multi bases =
        (if seqNumCharsToCopy k L offset = k then 1 else 0) <<< 19 |||
          seqPrevChar bases L offset strand <<< 16 |||
          (kMaxMulti - seqCountingOf multi L k offset) := rfl
    have hfields := packedWord_fields _ _ _ hfle hprev8 hcnt
    have hEb : seqExtract_b (seqLastWord k L offset strand multi bases) =
        seqPrevChar bases L offset strand := by
      show (seqLastWord k L offset strand multi bases >>> 16) &&& 7 = _
      rw [hw]
      exact hfields.1
    have hEbit : seqExtract_aBit (seqLastWord k L offset strand multi bases) =
        (if seqNumCharsToCopy k L offset = k then 1 else 0) := by
      show (seqLastWord k L offset strand multi bases >>> 19) &&& 1 = _
      rw [hw]
      exact hfields.2
    rintro ⟨ha, hbq⟩
    rw [hEb] at hbq
    unfold seqExtract_a at ha
    by_cases hbit : seqExtract_aBit (seqLastWord k L offset strand multi bases) = 1
    · rw [if_pos hbit] at ha
      have : aChar &&& 3 ≤ 3 := Nat.and_le_right
      simp only [kSentinelValue] at ha
      omega
    · rw [hEbit] at hbit
      have hncc : ¬ seqNumCharsToCopy k L offset = k := by
        intro hc
        exact hbit (by rw [if_pos hc])
      have hover : L < offset + k := by
        by_contra hge
        exact hncc (by unfold seqNumCharsToCopy; rw [if_neg hge])
      have hoff0 : offset = 0 := by
        unfold seqPrevChar kSentinelValue at hbq
        by_cases hs : strand = 0
        · rw [if_pos hs] at hbq
          by_cases ho : offset = 0
          · exact ho
          · rw [if_neg ho] at hbq
            exact absurd hbq (by have := h4 (offset - 1); omega)
        · rw [if_neg hs] at hbq
          by_cases ho : offset = 0
          · exact ho
          · rw [if_neg ho] at hbq
            omega
      omega
  · -- read2sdbg stage 2
    have hprev8 : s2PrevChar bases k offset strand etype < 8 := by
      unfold s2PrevChar kSentinelValue
      by_cases hs : strand = 0
      · rw [if_pos hs]
        by_cases h0 : etype = 0
        · rw [if_pos h0]; omega
        · rw [if_neg h0]
          by_cases h1 : etype = 1
          · rw [if_pos h1]; exact lt_trans (h4 _) (by norm_num)
          · rw [if_neg h1]; exact lt_trans (h4 _) (by norm_num)
      · rw [if_neg hs]
        by_cases h0 : etype = 0
        · rw [if_pos h0]; omega
        · rw [if_neg h0]
          by_cases h1 : etype = 1
          · rw [if_pos h1]; omega
          · rw [if_neg h1]; omega
    have hfle : (if s2NumCharsToCopy k strand etype = k then 1 else 0) ≤ 1 := by
      split <;> omega
    have hw : s2LastWord k strand etype offset bases =
        (if s2NumCharsToCopy k strand etype = k then 1 else 0) <<< 3 |||
          s2PrevChar bases k offset strand etype := rfl
    have hfields := s2PackedWord_fields _ _ hfle hprev8
    have hEb : s2Extract_b (s2LastWord k strand etype offset bases) =
        s2PrevChar bases k offset strand etype := by
      show (s2LastWord k strand etype offset bases) &&& 7 = _
      rw [hw]
      exact hfields.1
    have hEbit : s2Extract_aBit (s2LastWord k strand etype offset bases) =
        (if s2NumCharsToCopy k strand etype = k then 1 else 0) := by
      show (s2LastWord k strand etype offset bases >>> 3) &&& 1 = _
      rw [hw]
      exact hfields.2
    rintro ⟨ha, hbq⟩
    rw [hEb] at hbq
    unfold s2Extract_a at ha
    by_cases hbit : s2Extract_aBit (s2LastWord k strand etype offset bases) = 1
    · rw [if_pos hbit] at ha
      have : aChar &&& 3 ≤ 3 := Nat.and_le_right
      simp only [kSentinelValue] at ha
      omega
    · rw [hEbit] at hbit
      have hncc : ¬ s2NumCharsToCopy k strand etype = k := by
        intro hc
        exact hbit (by rw [if_pos hc])
      unfold s2PrevChar kSentinelValue at hbq
      unfold s2NumCharsToCopy at hncc
      by_cases hs : strand = 0
      · rw [if_pos hs] at hbq hncc
        by_cases h0 : etype = 0
        · exact hncc (by rw [if_neg (show ¬ etype = 2 from by omega)])
        · rw [if_neg h0] at hbq
          by_cases h1 : etype = 1
          · rw [if_pos h1] at hbq
            have := h4 offset
            omega
          · rw [if_neg h1] at hbq
            have := h4 (offset + 1)
            omega
      · rw [if_neg hs] at hbq hncc
        by_cases h0 : etype = 0
        · rw [if_pos h0] at hbq
          omega
        · rw [if_neg h0] at hbq
          by_cases h1 : etype = 1
          · rw [if_pos h1] at hbq
            omega
          · rw [if_neg h1] at hbq
            rw [if_neg h0] at hncc
            simp at hncc

/-- Witness for C10 at a concrete interior edge: k = 3, sequence ACGT,
offset 1, forward strand, solid edge type. -/
theorem extractor_items_have_one_real_symbol_witness :
    (3 + 1 ≤ 4 ∧ 1 ≤ kMaxMulti ∧ (∀ c ∈ [0, 1, 2, 3], c < 4) ∧ 1 < 3) ∧
    ¬ (seqExtract_a (seqLastWord 3 4 1 0 1 [0, 1, 2, 3]) 2 = kSentinelValue ∧
       seqExtract_b (seqLastWord 3 4 1 0 1 [0, 1, 2, 3]) = kSentinelValue) := by
  refine ⟨⟨by decide, by decide, by decide, by decide⟩, ?_⟩
  exact (extractor_items_have_one_real_symbol 3 4 1 0 1 1 2 [0, 1, 2, 3]
    (by decide) (by decide) (by decide) (by decide)).1

/-- Helper: what the mercy-adding loop can still append from a given state.
Positions already accumulated stay; a pending last_no_out is released by the
next outgoing-only position reached through neither-positions; and any
later incoming-only/outgoing-only pair contributes its gap. -/
theorem mercyScanAux_mem (hin hout : Nat → Bool) (n : Nat) :
    ∀ (fuel i : Nat) (lastNoOut : Option Nat) (acc : List Nat) (j : Nat),
      n - i ≤ fuel →
      (j ∈ mercyScanAux hin hout n fuel i lastNoOut acc ↔
        j ∈ acc ∨ futureFromState hin hout n i lastNoOut j ∨
          futureFresh hin hout n i j) := by
  intro fuel
  induction fuel with
  | zero =>
    intro i lastNoOut acc j hfuel
    simp only [mercyScanAux]
    constructor
    · exact fun h => Or.inl h
    · rintro (h | h | h)
      · exact h
      · cases lastNoOut with
        | none => exact h.elim
        | some l =>
          obtain ⟨_, i2, hi2, hlt, _⟩ := h
          omega
      · obtain ⟨l, i2, hil, hlj, hji2, hi2n, _⟩ := h
        omega
  | succ fuel ih =>
    intro i lastNoOut acc j hfuel
    by_cases hlt : i < n
    · cases hi : hin i <;> cases ho : hout i
      · -- neither: state kept
        simp only [mercyScanAux, if_pos hlt, hi, ho]
        rw [ih (i + 1) lastNoOut acc j (by omega)]
        have k1 : futureFromState hin hout n i lastNoOut j ↔
            futureFromState hin hout n (i + 1) lastNoOut j := by
          cases lastNoOut with
          | none => simp [futureFromState]
          | some l =>
            simp only [futureFromState]
            constructor
            · rintro ⟨hlj, i2, hii2, hi2n, hji2, hout2, hmid⟩
              have hne : i2 ≠ i := by
                intro hc
                rw [hc] at hout2
                exact absurd hout2.2 (by simp [ho])
              exact ⟨hlj, i2, by omega, hi2n, hji2, hout2,
                fun m hm1 hm2 => hmid m (by omega) hm2⟩
            · rintro ⟨hlj, i2, hii2, hi2n, hji2, hout2, hmid⟩
              refine ⟨hlj, i2, by omega, hi2n, hji2, hout2, fun m hm1 hm2 => ?_⟩
              by_cases hmi : m = i
              · rw [hmi]
                exact ⟨hi, ho⟩
              · exact hmid m (by omega) hm2
        have k2 : futureFresh hin hout n i j ↔ futureFresh hin hout n (i + 1) j := by
          constructor
          · rintro ⟨l, i2, hil, hlj, hji2, hi2n, hinl, hout2, hmid⟩
            have hne : l ≠ i := by
              intro hc
              rw [hc] at hinl
              exact absurd hinl.1 (by simp [hi])
            exact ⟨l, i2, by omega, hlj, hji2, hi2n, hinl, hout2, hmid⟩
          · rintro ⟨l, i2, hil, hlj, hji2, hi2n, hinl, hout2, hmid⟩
            exact ⟨l, i2, by omega, hlj, hji2, hi2n, hinl, hout2, hmid⟩
        rw [k1, k2]
      · -- out only: release the pending range, clear the state
        simp only [mercyScanAux, if_pos hlt, hi, ho]
        rw [ih (i + 1) none _ j (by omega)]
        have g1 : (j ∈ (match lastNoOut with
            | some l => List.range' l (i - l)
            | none => ([] : List Nat))) ↔
            futureFromState hin hout n i lastNoOut j := by
          cases lastNoOut with
          | none => simp [futureFromState]
          | some l =>
            simp only [futureFromState]
            rw [List.mem_range'_1]
            constructor
            · rintro ⟨hlj, hjlt⟩
              have hji : j < i := by omega
              exact ⟨hlj, i, le_refl i, hlt, hji, ⟨hi, ho⟩, fun m hm1 hm2 => by omega⟩
            · rintro ⟨hlj, i2, hii2, hi2n, hji2, hout2, hmid⟩
              have hi2i : i2 = i := by
                by_contra hc
                have := hmid i (le_refl i) (by omega)
                exact absurd this.2 (by simp [ho])
              refine ⟨hlj, ?_⟩
              omega
        have g2 : futureFresh hin hout n i j ↔ futureFresh hin hout n (i + 1) j := by
          constructor
          · rintro ⟨l, i2, hil, hlj, hji2, hi2n, hinl, hout2, hmid⟩
            have hne : l ≠ i := by
              intro hc
              rw [hc] at hinl
              exact absurd hinl.1 (by simp [hi])
            exact ⟨l, i2, by omega, hlj, hji2, hi2n, hinl, hout2, hmid⟩
          · rintro ⟨l, i2, hil, hlj, hji2, hi2n, hinl, hout2, hmid⟩
            exact ⟨l, i2, by omega, hlj, hji2, hi2n, hinl, hout2, hmid⟩
        rw [List.mem_append, g1, g2]
        simp only [futureFromState]
        tauto
      · -- in only: remember last_no_out = i
        simp only [mercyScanAux, if_pos hlt, hi, ho]
        rw [ih (i + 1) (some i) acc j (by omega)]
        have f1 : ¬ futureFromState hin hout n i lastNoOut j := by
          cases lastNoOut with
          | none => simp [futureFromState]
          | some l =>
            simp only [futureFromState]
            rintro ⟨hlj, i2, hii2, hi2n, hji2, hout2, hmid⟩
            by_cases hc : i2 = i
            · rw [hc] at hout2
              exact absurd hout2.1 (by simp [hi])
            · exact absurd (hmid i (le_refl i) (by omega)).1 (by simp [hi])
        have f2 : futureFromState hin hout n (i + 1) (some i) j ∨
            futureFresh hin hout n (i + 1) j ↔ futureFresh hin hout n i j := by
          constructor
          · rintro (⟨hlj, i2, hii2, hi2n, hji2, hout2, hmid⟩ |
                ⟨l, i2, hil, hlj, hji2, hi2n, hinl, hout2, hmid⟩)
            · exact ⟨i, i2, le_refl i, hlj, hji2, hi2n, ⟨hi, ho⟩, hout2,
                fun m hm1 hm2 => hmid m (by omega) hm2⟩
            · exact ⟨l, i2, by omega, hlj, hji2, hi2n, hinl, hout2, hmid⟩
          · rintro ⟨l, i2, hil, hlj, hji2, hi2n, hinl, hout2, hmid⟩
            by_cases hc : l = i
            · subst hc
              exact Or.inl ⟨hlj, i2, by omega, hi2n, hji2, hout2,
                fun m hm1 hm2 => hmid m (by omega) hm2⟩
            · exact Or.inr ⟨l, i2, by omega, hlj, hji2, hi2n, hinl, hout2, hmid⟩
        constructor
        · rintro (h | h | h)
          · exact Or.inl h
          · exact Or.inr (Or.inr (f2.mp (Or.inl h)))
          · exact Or.inr (Or.inr (f2.mp (Or.inr h)))
        · rintro (h | h | h)
          · exact Or.inl h
          · exact absurd h f1
          · rcases f2.mpr h with h2 | h2
            · exact Or.inr (Or.inl h2)
            · exact Or.inr (Or.inr h2)
      · -- in and out: clear the state
        simp only [mercyScanAux, if_pos hlt, hi, ho]
        rw [ih (i + 1) none acc j (by omega)]
        have h1 : ¬ futureFromState hin hout n i lastNoOut j := by
          cases lastNoOut with
          | none => simp [futureFromState]
          | some l =>
            simp only [futureFromState]
            rintro ⟨hlj, i2, hii2, hi2n, hji2, hout2, hmid⟩
            by_cases hc : i2 = i
            · rw [hc] at hout2
              exact absurd hout2.1 (by simp [hi])
            · exact absurd (hmid i (le_refl i) (by omega)).1 (by simp [hi])
        have h2 : futureFresh hin hout n i j ↔ futureFresh hin hout n (i + 1) j := by
          constructor
          · rintro ⟨l, i2, hil, hlj, hji2, hi2n, hinl, hout2, hmid⟩
            have hne : l ≠ i := by
              intro hc
              rw [hc] at hinl
              exact absurd hinl.2 (by simp [ho])
            exact ⟨l, i2, by omega, hlj, hji2, hi2n, hinl, hout2, hmid⟩
          · rintro ⟨l, i2, hil, hlj, hji2, hi2n, hinl, hout2, hmid⟩
            exact ⟨l, i2, by omega, hlj, hji2, hi2n, hinl, hout2, hmid⟩
        simp only [futureFromState]
        rw [h2]
        tauto
    · simp only [mercyScanAux, if_neg hlt]
      constructor
      · exact fun h => Or.inl h
      · rintro (h | h | h)
        · exact h
        · cases lastNoOut with
          | none => exact h.elim
          | some l =>
            obtain ⟨_, i2, hi2, hi2n, _⟩ := h
            omega
        · obtain ⟨l, i2, hil, hlj, hji2, hi2n, _⟩ := h
          omega

/-- C8: the mercy-adding scan appends exactly the (k+1)-mer positions j
covered by a pending last_no_out: j is emitted iff some incoming-only
position l <= j and some outgoing-only position i > j enclose it with only
neither-in-nor-out positions strictly between l and i (so last_no_out = l
still holds when the outgoing-only position i is reached, and the loop then
appends every position of [l, i) and clears last_no_out).  Each mercy edge
is the (k+1)-mer at its position, every appended multiplicity entry is 1,
and the appended edges are part of the package handed to the bucket-size
preprocessor. -/
theorem mercy_edges_rule (hin hout : Nat → Bool) (n k : Nat)
    (read : List Nat) (multis : List Nat) (pkg : List (List Nat)) :
    (∀ j, j ∈ mercyPositions hin hout n ↔
      ∃ l i, l ≤ j ∧ j < i ∧ i < n ∧ inOnlyAt hin hout l ∧ outOnlyAt hin hout i ∧
        ∀ m, l < m → m < i → neitherAt hin hout m) ∧
    (∀ e, e ∈ mercyEdgesOf k read hin hout n ↔
      ∃ j ∈ mercyPositions hin hout n, e = (read.drop j).take (k + 1)) ∧
    (∀ x ∈ (multisAfterMercy multis (mercyEdgesOf k read hin hout n).length).drop
        multis.length, x = 1) ∧
    (∀ e ∈ mercyEdgesOf k read hin hout n,
      e ∈ packageForBucketSizing pkg (mercyEdgesOf k read hin hout n)) := by
  refine ⟨?_, ?_, ?_, ?_⟩
  · intro j
    unfold mercyPositions
    rw [mercyScanAux_mem hin hout n n 0 none [] j (by omega)]
    simp only [List.not_mem_nil, futureFromState, false_or]
    constructor
    · rintro ⟨l, i2, _, hlj, hji2, hi2n, hinl, hout2, hmid⟩
      exact ⟨l, i2, hlj, hji2, hi2n, hinl, hout2, hmid⟩
    · rintro ⟨l, i2, hlj, hji2, hi2n, hinl, hout2, hmid⟩
      exact ⟨l, i2, Nat.zero_le l, hlj, hji2, hi2n, hinl, hout2, hmid⟩
  · intro e
    unfold mercyEdgesOf
    rw [List.mem_map]
    constructor
    · rintro ⟨j, hj, he⟩
      exact ⟨j, hj, he.symm⟩
    · rintro ⟨j, hj, he⟩
      exact ⟨j, hj, he.symm⟩
  · intro x hx
    unfold multisAfterMercy at hx
    rw [List.drop_left] at hx
    exact (List.eq_of_mem_replicate hx)
  · intro e he
    unfold packageForBucketSizing
    exact List.mem_append_right pkg he

/-- Witness for C8 on a concrete read: has-in only at position 1, has-out
only at position 3, five window positions; the scan emits positions 1 and 2
with multiplicity 1 each. -/
theorem mercy_edges_rule_witness :
    mercyPositions (fun m => m == 1) (fun m => m == 3) 5 = [1, 2] ∧
    (2 ∈ mercyPositions (fun m => m == 1) (fun m => m == 3) 5 ↔
      ∃ l i, l ≤ 2 ∧ 2 < i ∧ i < 5 ∧
        inOnlyAt (fun m => m == 1) (fun m => m == 3) l ∧
        outOnlyAt (fun m => m == 1) (fun m => m == 3) i ∧
        ∀ m, l < m → m < i → neitherAt (fun m => m == 1) (fun m => m == 3) m) := by
  refine ⟨by decide, ?_⟩
  exact (mercy_edges_rule (fun m => m == 1) (fun m => m == 3) 5 3 [] [] []).1 2

/-- Helper: hasBit is testBit. -/
theorem hasBit_eq_testBit (x t : Nat) : hasBit x t = x.testBit t := by
  unfold hasBit
  rw [Nat.one_shiftLeft, Nat.and_two_pow]
  cases h : x.testBit t <;> simp [h, Nat.pos_iff_ne_zero, Nat.pow_eq_zero]

/-- Helper: no bit is set in zero. -/
theorem hasBit_zero (t : Nat) : hasBit 0 t = false := by
  rw [hasBit_eq_testBit, Nat.zero_testBit]

/-- Helper: bit test distributes over or. -/
theorem hasBit_or (x y t : Nat) : hasBit (x ||| y) t = (hasBit x t || hasBit y t) := by
  rw [hasBit_eq_testBit, hasBit_eq_testBit, hasBit_eq_testBit, Nat.testBit_or]

/-- Helper: the single bit of 1 << u sits at position u. -/
theorem hasBit_one_shift (u t : Nat) : hasBit (1 <<< u) t = true ↔ u = t := by
  rw [hasBit_eq_testBit, Nat.one_shiftLeft, Nat.testBit_two_pow]
  simp

/-- Helper: setting bit u leaves exactly the old bits plus u. -/
theorem hasBit_set (x u t : Nat) :
    hasBit (x ||| (1 <<< u)) t = true ↔ hasBit x t = true ∨ u = t := by
  rw [hasBit_or, Bool.or_eq_true, hasBit_one_shift]

/-- Helper: the faithful output loop equals the output loop over the
sub-group decomposition. -/
theorem emitFromAux_eq_emitRuns (ms : MarkSt) :
    ∀ (fuel outed i : Nat) (l : List SItem), l.length ≤ fuel →
      emitFromAux ms fuel outed i l = emitRuns ms outed (runsFromAux fuel i l) := by
  intro fuel
  induction fuel with
  | zero =>
    intro outed i l hf
    simp [emitFromAux, runsFromAux, emitRuns]
  | succ fuel ih =>
    intro outed i l hf
    cases l with
    | nil => simp [emitFromAux, runsFromAux, emitRuns]
    | cons it rest =>
      have hlen : (rest.drop (runLen it rest)).length ≤ fuel := by
        rw [List.length_drop]
        simp only [List.length_cons] at hf
        omega
      simp only [emitFromAux, runsFromAux, emitRuns]
      by_cases hs : suppressedRun ms it.a it.b
      · rw [if_pos hs, if_pos hs, ih _ _ _ hlen]
      · rw [if_neg hs, if_neg hs, ih _ _ _ hlen]

/-- Helper: the output pass as a pass over sub-groups. -/
theorem emitFrom_eq_emitRuns (ms : MarkSt) (outed i : Nat) (l : List SItem) :
    emitFrom ms outed i l = emitRuns ms outed (runsFrom i l) := by
  unfold emitFrom runsFrom
  exact emitFromAux_eq_emitRuns ms l.length outed i l (le_refl _)

/-- Helper: elements within the takeWhile length satisfy the predicate. -/
theorem takeWhile_get_pred (p : SItem → Bool) :
    ∀ (l : List SItem) (m : Nat) (hm : m < l.length),
      m < (l.takeWhile p).length → p (l.get ⟨m, hm⟩) = true := by
  intro l
  induction l with
  | nil => intro m hm; simp at hm
  | cons x xs ih =>
    intro m hm hmt
    cases hp : p x with
    | false => rw [List.takeWhile_cons_of_neg (by simp [hp])] at hmt; simp at hmt
    | true =>
      rw [List.takeWhile_cons_of_pos hp] at hmt
      cases m with
      | zero => simpa using hp
      | succ m =>
        simp only [List.length_cons, Nat.add_lt_add_iff_right] at hm ⊢
        simp only [List.length_cons, Nat.add_lt_add_iff_right] at hmt
        exact ih m hm (by omega)

/-- Helper: bounds of every sub-group produced from start index i. -/
theorem runsFromAux_bounds :
    ∀ (fuel i : Nat) (l : List SItem), l.length ≤ fuel →
      ∀ r ∈ runsFromAux fuel i l, i ≤ r.i ∧ r.i < r.j ∧ r.j ≤ i + l.length := by
  intro fuel
  induction fuel with
  | zero => intro i l hf r hr; simp [runsFromAux] at hr
  | succ fuel ih =>
    intro i l hf r hr
    cases l with
    | nil => simp [runsFromAux] at hr
    | cons it rest =>
      simp only [runsFromAux, List.mem_cons] at hr
      have hrl : runLen it rest ≤ rest.length := by
        unfold runLen
        exact List.Sublist.length_le (List.takeWhile_sublist _)
      rcases hr with hr | hr
      · rw [hr]
        simp only [List.length_cons]
        omega
      · have hlen : (rest.drop (runLen it rest)).length ≤ fuel := by
          rw [List.length_drop]
          simp only [List.length_cons] at hf
          omega
        have := ih (i + 1 + runLen it rest) _ hlen r hr
        rw [List.length_drop] at this
        simp only [List.length_cons]
        omega

/-- Helper: sub-groups are consecutive, so ends bound later starts. -/
theorem runsFromAux_chain :
    ∀ (fuel i : Nat) (l : List SItem), l.length ≤ fuel →
      (runsFromAux fuel i l).Pairwise (fun r s => r.j ≤ s.i) := by
  intro fuel
  induction fuel with
  | zero => intro i l hf; simp [runsFromAux]
  | succ fuel ih =>
    intro i l hf
    cases l with
    | nil => simp [runsFromAux]
    | cons it rest =>
      have hlen : (rest.drop (runLen it rest)).length ≤ fuel := by
        rw [List.length_drop]
        simp only [List.length_cons] at hf
        omega
      simp only [runsFromAux]
      refine List.Pairwise.cons ?_ (ih _ _ hlen)
      intro s hs
      have := (runsFromAux_bounds fuel _ _ hlen s hs).1
      simpa using this

/-- Helper: every sub-group's symbols occur on an item of the group. -/
theorem runsFromAux_rep_mem :
    ∀ (fuel i : Nat) (l : List SItem),
      ∀ r ∈ runsFromAux fuel i l, ∃ it ∈ l, it.a = r.a ∧ it.b = r.b := by
  intro fuel
  induction fuel with
  | zero => intro i l r hr; simp [runsFromAux] at hr
  | succ fuel ih =>
    intro i l r hr
    cases l with
    | nil => simp [runsFromAux] at hr
    | cons it rest =>
      simp only [runsFromAux, List.mem_cons] at hr
      rcases hr with hr | hr
      · exact ⟨it, by simp, by rw [hr], by rw [hr]⟩
      · obtain ⟨p, hp, hpa, hpb⟩ := ih _ _ r hr
        exact ⟨p, by
          have : p ∈ rest := List.mem_of_mem_drop hp
          simp [this], hpa, hpb⟩

/-- Helper: every item position inside a sub-group carries the sub-group's
symbols. -/
theorem runsFromAux_item_fields :
    ∀ (fuel i : Nat) (l : List SItem), l.length ≤ fuel →
      ∀ r ∈ runsFromAux fuel i l, ∀ (m : Nat) (hm : m < l.length),
        r.i ≤ i + m → i + m < r.j →
        (l.get ⟨m, hm⟩).a = r.a ∧ (l.get ⟨m, hm⟩).b = r.b := by
  intro fuel
  induction fuel with
  | zero => intro i l hf r hr; simp [runsFromAux] at hr
  | succ fuel ih =>
    intro i l hf r hr m hm hlo hhi
    cases l with
    | nil => simp [runsFromAux] at hr
    | cons it rest =>
      simp only [runsFromAux, List.mem_cons] at hr
      have hlen : (rest.drop (runLen it rest)).length ≤ fuel := by
        rw [List.length_drop]
        simp only [List.length_cons] at hf
        omega
      rcases hr with hr | hr
      · subst hr
        simp only at hhi
        cases m with
        | zero => simp
        | succ m =>
          have hm' : m < rest.length := by
            simp only [List.length_cons] at hm
            omega
          have hmt : m < (rest.takeWhile (matchAB it)).length := by
            unfold runLen at hhi
            omega
          have := takeWhile_get_pred (matchAB it) rest m hm' hmt
          unfold matchAB at this
          simp only [Bool.and_eq_true, beq_iff_eq] at this
          simp only [List.get_eq_getElem, List.getElem_cons_succ]
          exact ⟨this.1, this.2⟩
      · have hbounds := runsFromAux_bounds fuel _ _ hlen r hr
        have hge : 1 + runLen it rest ≤ m := by omega
        have hm2 : m - 1 - runLen it rest < (rest.drop (runLen it rest)).length := by
          rw [List.length_drop]
          simp only [List.length_cons] at hm
          omega
        have harith : i + 1 + runLen it rest + (m - 1 - runLen it rest) = i + m := by
          omega
        have := ih _ _ hlen r hr (m - 1 - runLen it rest) hm2
          (by omega) (by omega)
        have hm1 : m - 1 < rest.length := by
          simp only [List.length_cons] at hm
          omega
        have h1 : ((rest.drop (runLen it rest)).get ⟨m - 1 - runLen it rest, hm2⟩) =
            rest.get ⟨m - 1, hm1⟩ := by
          simp only [List.get_eq_getElem, List.getElem_drop]
          congr 1
          omega
        have h2 : (it :: rest).get ⟨m, hm⟩ = rest.get ⟨m - 1, hm1⟩ := by
          cases m with
          | zero => omega
          | succ m => simp [List.get_eq_getElem]
        rw [h1] at this
        rw [h2]
        exact this

/-- Helper: every item position lies inside some sub-group. -/
theorem runsFromAux_cover :
    ∀ (fuel i : Nat) (l : List SItem), l.length ≤ fuel →
      ∀ m, m < l.length → ∃ r ∈ runsFromAux fuel i l, r.i ≤ i + m ∧ i + m < r.j := by
  intro fuel
  induction fuel with
  | zero => intro i l hf m hm; omega
  | succ fuel ih =>
    intro i l hf m hm
    cases l with
    | nil => simp at hm
    | cons it rest =>
      have hlen : (rest.drop (runLen it rest)).length ≤ fuel := by
        rw [List.length_drop]
        simp only [List.length_cons] at hf
        omega
      by_cases hcase : m ≤ runLen it rest
      · refine ⟨⟨i, i + 1 + runLen it rest, it.a, it.b⟩, by simp [runsFromAux], ?_, ?_⟩
        · show i ≤ i + m
          omega
        · show i + m < i + 1 + runLen it rest
          omega
      · have hm2 : m - 1 - runLen it rest < (rest.drop (runLen it rest)).length := by
          rw [List.length_drop]
          simp only [List.length_cons] at hm
          omega
        obtain ⟨r, hr, h1, h2⟩ := ih (i + 1 + runLen it rest) _ hlen
          (m - 1 - runLen it rest) hm2
        refine ⟨r, by simp [runsFromAux, hr], by omega, by omega⟩

/-- Helper: the masks after one marking step. -/
theorem markStep_hsa (s : MarkSt) (i : Nat) (it : SItem) :
    (markStep s i it).hsa =
      if it.a ≠ 4 ∧ it.b ≠ 4 then s.hsa ||| (1 <<< it.a) else s.hsa := by
  simp only [markStep]
  by_cases h1 : it.a ≠ 4 ∧ it.b ≠ 4
  · simp only [if_pos h1]
    split <;> rfl
  · simp only [if_neg h1]
    split <;> rfl

/-- Helper: the b-mask after one marking step. -/
theorem markStep_hsb (s : MarkSt) (i : Nat) (it : SItem) :
    (markStep s i it).hsb =
      if it.a ≠ 4 ∧ it.b ≠ 4 then s.hsb ||| (1 <<< it.b) else s.hsb := by
  simp only [markStep]
  by_cases h1 : it.a ≠ 4 ∧ it.b ≠ 4
  · simp only [if_pos h1]
    split <;> rfl
  · simp only [if_neg h1]
    split <;> rfl

/-- Helper: the last_a array after one marking step. -/
theorem markStep_la (s : MarkSt) (i : Nat) (it : SItem) :
    (markStep s i it).la =
      if it.a ≠ 4 ∧ (it.b ≠ 4 ∨
          ¬ hasBit (if it.a ≠ 4 ∧ it.b ≠ 4 then s.hsa ||| (1 <<< it.a) else s.hsa) it.a)
      then (fun x => if x = it.a then some i else s.la x)
      else s.la := by
  simp only [markStep]
  by_cases h1 : it.a ≠ 4 ∧ it.b ≠ 4
  · simp only [if_pos h1]
    split <;> rfl
  · simp only [if_neg h1]
    split <;> rfl

/-- Helper: one-step unfolding of lastWAt, stated in the shape used by the
marking-loop proofs. -/
theorem lastWAt_cons (h v : Nat) (it : SItem) (rest : List SItem) :
    lastWAt h v (it :: rest) =
      match lastWAt (if it.a ≠ 4 ∧ it.b ≠ 4 then h ||| (1 <<< it.a) else h) v rest with
      | some m => some (m + 1)
      | none =>
        if it.a = v ∧ it.a ≠ 4 ∧
            (it.b ≠ 4 ∨ ¬ hasBit (if it.a ≠ 4 ∧ it.b ≠ 4 then h ||| (1 <<< it.a) else h) v)
        then some 0 else none := rfl

/-- Helper: the marking loop writes last_a[v] exactly where lastWAt says. -/
theorem markFrom_la (v : Nat) : ∀ (l : List SItem) (s : MarkSt) (i : Nat),
    (markFrom s i l).la v =
      match lastWAt s.hsa v l with
      | some m => some (i + m)
      | none => s.la v := by
  intro l
  induction l with
  | nil => intro s i; rfl
  | cons it rest ih =>
    intro s i
    rw [show markFrom s i (it :: rest) = markFrom (markStep s i it) (i + 1) rest from rfl]
    rw [ih (markStep s i it) (i + 1), markStep_hsa]
    rw [lastWAt_cons]
    cases hrec : lastWAt
        (if it.a ≠ 4 ∧ it.b ≠ 4 then s.hsa ||| (1 <<< it.a) else s.hsa) v rest with
    | some m =>
      simp only
      congr 1
      omega
    | none =>
      simp only [markStep_la]
      by_cases hv : v = it.a
      · subst hv
        by_cases hg : it.a ≠ 4 ∧ (it.b ≠ 4 ∨
            ¬ hasBit (if it.a ≠ 4 ∧ it.b ≠ 4 then s.hsa ||| (1 <<< it.a) else s.hsa) it.a)
        · have hc : it.a = it.a ∧ it.a ≠ 4 ∧ (it.b ≠ 4 ∨
              ¬ hasBit (if it.a ≠ 4 ∧ it.b ≠ 4 then s.hsa ||| (1 <<< it.a) else s.hsa) it.a) :=
            ⟨rfl, hg⟩
          rw [if_pos hg, if_pos hc]
          simp
        · have hc : ¬ (it.a = it.a ∧ it.a ≠ 4 ∧ (it.b ≠ 4 ∨
              ¬ hasBit (if it.a ≠ 4 ∧ it.b ≠ 4 then s.hsa ||| (1 <<< it.a) else s.hsa) it.a)) :=
            fun h => hg h.2
          rw [if_neg hg, if_neg hc]
      · have hc : ¬ (it.a = v ∧ it.a ≠ 4 ∧ (it.b ≠ 4 ∨
            ¬ hasBit (if it.a ≠ 4 ∧ it.b ≠ 4 then s.hsa ||| (1 <<< it.a) else s.hsa) v)) :=
          fun h => hv h.1.symm
        rw [if_neg hc]
        by_cases hg : it.a ≠ 4 ∧ (it.b ≠ 4 ∨
            ¬ hasBit (if it.a ≠ 4 ∧ it.b ≠ 4 then s.hsa ||| (1 <<< it.a) else s.hsa) it.a)
        · rw [if_pos hg]
          simp [hv]
        · rw [if_neg hg]

/-- Helper: a bit of has_solid_a is set exactly for the a-symbols of the
solid items. -/
theorem markFrom_hsa_iff (t : Nat) : ∀ (l : List SItem) (s : MarkSt) (i : Nat),
    hasBit (markFrom s i l).hsa t = true ↔
      hasBit s.hsa t = true ∨ ∃ it ∈ l, it.a = t ∧ it.a ≠ 4 ∧ it.b ≠ 4 := by
  intro l
  induction l with
  | nil =>
    intro s i
    simp [markFrom]
  | cons it rest ih =>
    intro s i
    rw [show markFrom s i (it :: rest) = markFrom (markStep s i it) (i + 1) rest from rfl]
    rw [ih (markStep s i it) (i + 1), markStep_hsa]
    by_cases h1 : it.a ≠ 4 ∧ it.b ≠ 4
    · rw [if_pos h1]
      rw [hasBit_set]
      constructor
      · rintro ((h | h) | h)
        · exact Or.inl h
        · exact Or.inr ⟨it, by simp, h, h1.1, h1.2⟩
        · obtain ⟨p, hp, h2, h3, h4⟩ := h
          exact Or.inr ⟨p, by simp [hp], h2, h3, h4⟩
      · rintro (h | ⟨p, hp, h2, h3, h4⟩)
        · exact Or.inl (Or.inl h)
        · rcases List.mem_cons.mp hp with hp | hp
          · exact Or.inl (Or.inr (by rw [← hp, h2]))
          · exact Or.inr ⟨p, hp, h2, h3, h4⟩
    · rw [if_neg h1]
      constructor
      · rintro (h | ⟨p, hp, h2, h3, h4⟩)
        · exact Or.inl h
        · exact Or.inr ⟨p, by simp [hp], h2, h3, h4⟩
      · rintro (h | ⟨p, hp, h2, h3, h4⟩)
        · exact Or.inl h
        · rcases List.mem_cons.mp hp with hp | hp
          · exact absurd (by rw [hp] at h3 h4; exact ⟨h3, h4⟩) h1
          · exact Or.inr ⟨p, hp, h2, h3, h4⟩

/-- Helper: a bit of has_solid_b is set exactly for the b-symbols of the
solid items. -/
theorem markFrom_hsb_iff (t : Nat) : ∀ (l : List SItem) (s : MarkSt) (i : Nat),
    hasBit (markFrom s i l).hsb t = true ↔
      hasBit s.hsb t = true ∨ ∃ it ∈ l, it.b = t ∧ it.a ≠ 4 ∧ it.b ≠ 4 := by
  intro l
  induction l with
  | nil =>
    intro s i
    simp [markFrom]
  | cons it rest ih =>
    intro s i
    rw [show markFrom s i (it :: rest) = markFrom (markStep s i it) (i + 1) rest from rfl]
    rw [ih (markStep s i it) (i + 1), markStep_hsb]
    by_cases h1 : it.a ≠ 4 ∧ it.b ≠ 4
    · rw [if_pos h1]
      rw [hasBit_set]
      constructor
      · rintro ((h | h) | h)
        · exact Or.inl h
        · exact Or.inr ⟨it, by simp, h, h1.1, h1.2⟩
        · obtain ⟨p, hp, h2, h3, h4⟩ := h
          exact Or.inr ⟨p, by simp [hp], h2, h3, h4⟩
      · rintro (h | ⟨p, hp, h2, h3, h4⟩)
        · exact Or.inl (Or.inl h)
        · rcases List.mem_cons.mp hp with hp | hp
          · exact Or.inl (Or.inr (by rw [← hp, h2]))
          · exact Or.inr ⟨p, hp, h2, h3, h4⟩
    · rw [if_neg h1]
      constructor
      · rintro (h | ⟨p, hp, h2, h3, h4⟩)
        · exact Or.inl h
        · exact Or.inr ⟨p, by simp [hp], h2, h3, h4⟩
      · rintro (h | ⟨p, hp, h2, h3, h4⟩)
        · exact Or.inl h
        · rcases List.mem_cons.mp hp with hp | hp
          · exact absurd (by rw [hp] at h3 h4; exact ⟨h3, h4⟩) h1
          · exact Or.inr ⟨p, hp, h2, h3, h4⟩

/-- Helper: every record of the output pass comes from a non-suppressed
sub-group and carries its fields and labels. -/
theorem emitRuns_mem_shape (ms : MarkSt) :
    ∀ (rs : List SRun) (outed : Nat) (rec : SRecord), rec ∈ emitRuns ms outed rs →
      ∃ run ∈ rs, ¬ suppressedRun ms run.a run.b ∧
        rec.i = run.i ∧ rec.j = run.j ∧ rec.a = run.a ∧ rec.b = run.b ∧
        rec.last = (if run.a = 4 then 0
          else if ms.la run.a = some (run.j - 1) then 1 else 0) ∧
        rec.isDollar = (if run.a = 4 then 1 else 0) := by
  intro rs
  induction rs with
  | nil => intro outed rec h; simp [emitRuns] at h
  | cons r rs ih =>
    intro outed rec h
    simp only [emitRuns] at h
    by_cases hs : suppressedRun ms r.a r.b
    · rw [if_pos hs] at h
      obtain ⟨run, h1, h2⟩ := ih outed rec h
      exact ⟨run, List.mem_cons_of_mem _ h1, h2⟩
    · rw [if_neg hs] at h
      rcases List.mem_cons.mp h with h | h
      · exact ⟨r, List.mem_cons_self _ _, hs, by rw [h], by rw [h], by rw [h], by rw [h],
          by rw [h], by rw [h]⟩
      · obtain ⟨run, h1, h2⟩ := ih _ rec h
        exact ⟨run, List.mem_cons_of_mem _ h1, h2⟩

/-- Helper: every non-suppressed sub-group produces a record with its
fields and labels. -/
theorem emitRuns_exists (ms : MarkSt) :
    ∀ (rs : List SRun) (outed : Nat) (run : SRun), run ∈ rs →
      ¬ suppressedRun ms run.a run.b →
      ∃ rec ∈ emitRuns ms outed rs,
        rec.i = run.i ∧ rec.j = run.j ∧ rec.a = run.a ∧ rec.b = run.b ∧
        rec.last = (if run.a = 4 then 0
          else if ms.la run.a = some (run.j - 1) then 1 else 0) ∧
        rec.isDollar = (if run.a = 4 then 1 else 0) := by
  intro rs
  induction rs with
  | nil => intro outed run h; simp at h
  | cons r rs ih =>
    intro outed run hmem hns
    rcases List.mem_cons.mp hmem with h | h
    · subst h
      simp only [emitRuns, if_neg hns]
      exact ⟨_, List.mem_cons_self _ _, rfl, rfl, rfl, rfl, rfl, rfl⟩
    · by_cases hs : suppressedRun ms r.a r.b
      · simp only [emitRuns, if_pos hs]
        exact ih outed run h hns
      · simp only [emitRuns, if_neg hs]
        obtain ⟨rec, h1, h2⟩ := ih (outed ||| (1 <<< r.b)) run h hns
        exact ⟨rec, List.mem_cons_of_mem _ h1, h2⟩

/-- Helper: records inherit the strict ordering of the sub-groups. -/
theorem emitRuns_pairwise (ms : MarkSt) :
    ∀ (rs : List SRun) (outed : Nat),
      rs.Pairwise (fun u v => u.j ≤ v.i) → (∀ x ∈ rs, x.i < x.j) →
      (emitRuns ms outed rs).Pairwise (fun u v => u.i < v.i ∧ u.j < v.j) := by
  intro rs
  induction rs with
  | nil => intro outed h1 h2; simp [emitRuns]
  | cons r rs ih =>
    intro outed hpw hib
    have hhd := (List.pairwise_cons.mp hpw).1
    have hpw2 := (List.pairwise_cons.mp hpw).2
    have hib2 : ∀ x ∈ rs, x.i < x.j := fun x hx => hib x (List.mem_cons_of_mem _ hx)
    by_cases hs : suppressedRun ms r.a r.b
    · simp only [emitRuns, if_pos hs]
      exact ih outed hpw2 hib2
    · simp only [emitRuns, if_neg hs]
      refine List.Pairwise.cons ?_ (ih _ hpw2 hib2)
      intro rec hrec
      obtain ⟨run, hrun, _, hi, hj, _⟩ := emitRuns_mem_shape ms rs _ rec hrec
      have h1 : r.j ≤ run.i := hhd run hrun
      have h2 : run.i < run.j := hib2 run hrun
      have h3 : r.i < r.j := hib r (List.mem_cons_self _ _)
      refine ⟨?_, ?_⟩
      · show r.i < rec.i
        omega
      · show r.j < rec.j
        omega

/-- Helper: a predicate met at some position and at no two positions
counts exactly once. -/
theorem countP_eq_one_of_mem_unique {α : Type} (q : α → Bool) :
    ∀ (l : List α), l.Pairwise (fun u v => ¬ (q u = true ∧ q v = true)) →
      ∀ x ∈ l, q x = true → l.countP q = 1 := by
  intro l
  induction l with
  | nil => intro _ x hx; simp at hx
  | cons y ys ih =>
    intro hpw x hx hqx
    have h1 := (List.pairwise_cons.mp hpw).1
    have h2 := (List.pairwise_cons.mp hpw).2
    rcases List.mem_cons.mp hx with h | h
    · subst h
      rw [List.countP_cons, if_pos hqx]
      have hz : ys.countP q = 0 :=
        List.countP_eq_zero.mpr (fun z hz hqz => h1 z hz ⟨hqx, hqz⟩)
      omega
    · have hqy : q y = false := by
        cases hy : q y with
        | false => rfl
        | true => exact absurd ⟨hy, hqx⟩ (h1 x h)
      rw [List.countP_cons, if_neg (by simp [hqy])]
      simpa using ih h2 x h hqx

/-- Helper: a solid occurrence among the first n items, by index. -/
theorem solidInPre_iff (l : List SItem) (v n : Nat) :
    solidInPre l v n ↔
      ∃ (m : Nat) (hm : m < l.length), m < n ∧
        (l.get ⟨m, hm⟩).a = v ∧ (l.get ⟨m, hm⟩).b ≠ 4 := by
  unfold solidInPre
  constructor
  · rintro ⟨p, hp, h1, h2⟩
    obtain ⟨m, hm, hx⟩ := List.mem_take_iff_getElem.mp hp
    have hm2 : m < n ∧ m < l.length := lt_min_iff.mp hm
    refine ⟨m, hm2.2, hm2.1, ?_, ?_⟩
    · rw [List.get_eq_getElem]
      rw [show l[m] = p from hx]
      exact h1
    · rw [List.get_eq_getElem]
      rw [show l[m] = p from hx]
      exact h2
  · rintro ⟨m, hm, h1, h2, h3⟩
    refine ⟨l.get ⟨m, hm⟩, ?_, h2, h3⟩
    exact List.mem_take_iff_getElem.mpr ⟨m, lt_min_iff.mpr ⟨h1, hm⟩, rfl⟩

/-- Helper: the updated mask of one item, as seen at symbol v. -/
theorem hasBit_upd (h : Nat) (it : SItem) (v : Nat) :
    hasBit (if it.a ≠ 4 ∧ it.b ≠ 4 then h ||| (1 <<< it.a) else h) v = true ↔
      hasBit h v = true ∨ (it.a = v ∧ it.a ≠ 4 ∧ it.b ≠ 4) := by
  by_cases h1 : it.a ≠ 4 ∧ it.b ≠ 4
  · rw [if_pos h1, hasBit_set]
    constructor
    · rintro (h2 | h2)
      · exact Or.inl h2
      · exact Or.inr ⟨h2, h1.1, h1.2⟩
    · rintro (h2 | ⟨h2, _, _⟩)
      · exact Or.inl h2
      · exact Or.inr h2
  · rw [if_neg h1]
    constructor
    · exact Or.inl
    · rintro (h2 | ⟨h2, h3, h4⟩)
      · exact h2
      · exact absurd ⟨h3, h4⟩ h1

/-- Helper: a solid occurrence among the first n+1 items of a cons. -/
theorem solidInPre_cons_succ (it : SItem) (rest : List SItem) (v n : Nat) :
    solidInPre (it :: rest) v (n + 1) ↔
      (it.a = v ∧ it.b ≠ 4) ∨ solidInPre rest v n := by
  unfold solidInPre
  rw [List.take_succ_cons]
  constructor
  · rintro ⟨p, hp, h1, h2⟩
    rcases List.mem_cons.mp hp with h | h
    · subst h
      exact Or.inl ⟨h1, h2⟩
    · exact Or.inr ⟨p, h, h1, h2⟩
  · rintro (⟨h1, h2⟩ | ⟨p, hp, h1, h2⟩)
    · exact ⟨it, List.mem_cons_self _ _, h1, h2⟩
    · exact ⟨p, List.mem_cons_of_mem _ hp, h1, h2⟩

/-- Helper: no solid occurrence among the first 0 items. -/
theorem solidInPre_zero (l : List SItem) (v : Nat) : ¬ solidInPre l v 0 := by
  rintro ⟨p, hp, _⟩
  simp at hp

/-- Helper: the write guard at the head of a group. -/
theorem writeGuardAt_zero (h : Nat) (it : SItem) (rest : List SItem) (v : Nat) :
    writeGuardAt h (it :: rest) v 0 ↔
      it.a = v ∧ v ≠ 4 ∧
        (it.b ≠ 4 ∨ (hasBit h v = false ∧ ¬ (it.a = v ∧ it.b ≠ 4))) := by
  unfold writeGuardAt
  constructor
  · rintro ⟨hm, h1, h2, h3⟩
    refine ⟨h1, h2, ?_⟩
    rcases h3 with h3 | ⟨h3, h4⟩
    · exact Or.inl h3
    · refine Or.inr ⟨h3, ?_⟩
      rintro ⟨h5, h6⟩
      exact h4 ((solidInPre_cons_succ it rest v 0).mpr (Or.inl ⟨h5, h6⟩))
  · rintro ⟨h1, h2, h3⟩
    refine ⟨by simp, h1, h2, ?_⟩
    rcases h3 with h3 | ⟨h3, h4⟩
    · exact Or.inl h3
    · refine Or.inr ⟨h3, ?_⟩
      intro hs
      rcases (solidInPre_cons_succ it rest v 0).mp hs with h5 | h5
      · exact h4 h5
      · exact solidInPre_zero rest v h5

/-- Helper: the write guard at a later position of a cons, in terms of the
tail and the updated mask. -/
theorem writeGuardAt_cons_succ (h : Nat) (it : SItem) (rest : List SItem) (v m : Nat) :
    writeGuardAt h (it :: rest) v (m + 1) ↔
      writeGuardAt (if it.a ≠ 4 ∧ it.b ≠ 4 then h ||| (1 <<< it.a) else h) rest v m := by
  unfold writeGuardAt
  constructor
  · rintro ⟨hm, h1, h2, h3⟩
    have hm2 : m < rest.length := by
      simp only [List.length_cons] at hm
      omega
    refine ⟨hm2, h1, h2, ?_⟩
    rcases h3 with h3 | ⟨h4, h5⟩
    · exact Or.inl h3
    · refine Or.inr ⟨?_, ?_⟩
      · cases hb : hasBit (if it.a ≠ 4 ∧ it.b ≠ 4 then h ||| (1 <<< it.a) else h) v with
        | false => rfl
        | true =>
          rcases (hasBit_upd h it v).mp hb with hb2 | hb2
          · rw [hb2] at h4
            exact Bool.noConfusion h4
          · exact absurd ((solidInPre_cons_succ it rest v (m + 1)).mpr
              (Or.inl ⟨hb2.1, hb2.2.2⟩)) h5
      · intro hs
        exact h5 ((solidInPre_cons_succ it rest v (m + 1)).mpr (Or.inr hs))
  · rintro ⟨hm2, h1, h2, h3⟩
    have hm : m + 1 < (it :: rest).length := by
      simp only [List.length_cons]
      omega
    refine ⟨hm, h1, h2, ?_⟩
    rcases h3 with h3 | ⟨h4, h5⟩
    · exact Or.inl h3
    · refine Or.inr ⟨?_, ?_⟩
      · cases hb : hasBit h v with
        | false => rfl
        | true =>
          have := (hasBit_upd h it v).mpr (Or.inl hb)
          rw [this] at h4
          exact Bool.noConfusion h4
      · intro hs
        rcases (solidInPre_cons_succ it rest v (m + 1)).mp hs with ⟨ha, hbne⟩ | hs2
        · have : it.a ≠ 4 := by
            rw [ha]
            exact h2
          have := (hasBit_upd h it v).mpr (Or.inr ⟨ha, this, hbne⟩)
          rw [this] at h4
          exact Bool.noConfusion h4
        · exact h5 hs2

/-- Helper: lastWAt returns the greatest index where the write guard
holds, and none exactly when the guard never holds. -/
theorem lastWAt_spec :
    ∀ (l : List SItem) (h v : Nat),
      (∀ m, lastWAt h v l = some m →
        writeGuardAt h l v m ∧ ∀ m2, m < m2 → ¬ writeGuardAt h l v m2) ∧
      (lastWAt h v l = none → ∀ m, ¬ writeGuardAt h l v m) := by
  intro l
  induction l with
  | nil =>
    intro h v
    constructor
    · intro m hm
      exact absurd hm (by simp [lastWAt])
    · rintro _ m ⟨hm, _⟩
      simp at hm
  | cons it rest ih =>
    intro h v
    have ih2 := ih (if it.a ≠ 4 ∧ it.b ≠ 4 then h ||| (1 <<< it.a) else h) v
    cases hrec : lastWAt (if it.a ≠ 4 ∧ it.b ≠ 4 then h ||| (1 <<< it.a) else h) v rest with
    | some m0 =>
      have hval : lastWAt h v (it :: rest) = some (m0 + 1) := by
        rw [lastWAt_cons, hrec]
      obtain ⟨hg0, hmax0⟩ := ih2.1 m0 hrec
      constructor
      · intro m hm
        rw [hval] at hm
        injection hm with hm
        subst hm
        constructor
        · exact (writeGuardAt_cons_succ h it rest v m0).mpr hg0
        · intro m2 hm2 hg2
          cases m2 with
          | zero => omega
          | succ m3 =>
            exact hmax0 m3 (by omega) ((writeGuardAt_cons_succ h it rest v m3).mp hg2)
      · intro hnone
        rw [hval] at hnone
        exact Option.noConfusion hnone
    | none =>
      by_cases hC : it.a = v ∧ it.a ≠ 4 ∧
          (it.b ≠ 4 ∨ ¬ hasBit (if it.a ≠ 4 ∧ it.b ≠ 4 then h ||| (1 <<< it.a) else h) v)
      · have hval : lastWAt h v (it :: rest) = some 0 := by
          rw [lastWAt_cons, hrec, if_pos hC]
        constructor
        · intro m hm
          rw [hval] at hm
          injection hm with hm
          subst hm
          constructor
          · apply (writeGuardAt_zero h it rest v).mpr
            obtain ⟨hc1, hc2, hc3⟩ := hC
            refine ⟨hc1, by rw [← hc1]; exact hc2, ?_⟩
            rcases hc3 with hc3 | hc3
            · exact Or.inl hc3
            · refine Or.inr ⟨?_, ?_⟩
              · cases hb : hasBit h v with
                | false => rfl
                | true => exact absurd ((hasBit_upd h it v).mpr (Or.inl hb)) hc3
              · rintro ⟨h5, h6⟩
                exact hc3 ((hasBit_upd h it v).mpr (Or.inr ⟨h5, hc2, h6⟩))
          · intro m2 hm2 hg2
            cases m2 with
            | zero => omega
            | succ m3 =>
              exact ih2.2 hrec m3 ((writeGuardAt_cons_succ h it rest v m3).mp hg2)
        · intro hnone
          rw [hval] at hnone
          exact Option.noConfusion hnone
      · have hval : lastWAt h v (it :: rest) = none := by
          rw [lastWAt_cons, hrec, if_neg hC]
        constructor
        · intro m hm
          rw [hval] at hm
          exact Option.noConfusion hm
        · intro _ m hg
          cases m with
          | succ m3 =>
            exact ih2.2 hrec m3 ((writeGuardAt_cons_succ h it rest v m3).mp hg)
          | zero =>
            obtain ⟨h1, h2, h3⟩ := (writeGuardAt_zero h it rest v).mp hg
            apply hC
            refine ⟨h1, by rw [h1]; exact h2, ?_⟩
            rcases h3 with h3 | ⟨h4, h5⟩
            · exact Or.inl h3
            · refine Or.inr ?_
              intro hb
              rcases (hasBit_upd h it v).mp hb with hb2 | hb2
              · rw [hb2] at h4
                exact Bool.noConfusion h4
              · exact h5 ⟨hb2.1, hb2.2.2⟩

/-- Helper: if v occurs as a successor in the group and is not yet solid,
the write guard holds somewhere. -/
theorem writeGuard_of_occurs :
    ∀ (l : List SItem) (h v : Nat), v ≠ 4 → hasBit h v = false →
      (∃ it ∈ l, it.a = v) → ∃ m, writeGuardAt h l v m := by
  intro l
  induction l with
  | nil =>
    rintro h v _ _ ⟨it, hit, _⟩
    simp at hit
  | cons it rest ih =>
    intro h v hv hb hocc
    by_cases hav : it.a = v
    · refine ⟨0, (writeGuardAt_zero h it rest v).mpr ⟨hav, hv, ?_⟩⟩
      by_cases hbit : it.b = 4
      · exact Or.inr ⟨hb, fun h5 => h5.2 hbit⟩
      · exact Or.inl hbit
    · obtain ⟨p, hp, hpa⟩ := hocc
      rcases List.mem_cons.mp hp with h1 | h1
      · rw [h1] at hpa
        exact absurd hpa hav
      · have hb2 : hasBit (if it.a ≠ 4 ∧ it.b ≠ 4 then h ||| (1 <<< it.a) else h) v
            = false := by
          cases hx : hasBit (if it.a ≠ 4 ∧ it.b ≠ 4 then h ||| (1 <<< it.a) else h) v with
          | false => rfl
          | true =>
            rcases (hasBit_upd h it v).mp hx with hx2 | hx2
            · rw [hx2] at hb
              exact Bool.noConfusion hb
            · exact absurd hx2.1 hav
        obtain ⟨m, hm⟩ := ih _ v hv hb2 ⟨p, h1, hpa⟩
        exact ⟨m + 1, (writeGuardAt_cons_succ h it rest v m).mpr hm⟩

/-- Helper: the la entry after the marking pass of one group. -/
theorem markGroup_la (l : List SItem) (v : Nat) :
    (markGroup l).la v = lastWAt 0 v l := by
  have h : (markGroup l).la v =
      match lastWAt 0 v l with
      | some m => some (0 + m)
      | none => none := markFrom_la v l ⟨0, 0, fun _ => none⟩ 0
  rw [h]
  cases lastWAt 0 v l with
  | some m => simp
  | none => rfl

/-- Helper: when v occurs as a successor in the group, last_a[v] points at
the final item of a sub-group with successor v, and that sub-group is not
suppressed. -/
theorem la_target_run (l : List SItem) (v : Nat) (hv : v ≠ 4)
    (hocc : ∃ it ∈ l, it.a = v) :
    ∃ r ∈ runsFrom 0 l, r.a = v ∧ ¬ suppressedRun (markGroup l) r.a r.b ∧
      (markGroup l).la v = some (r.j - 1) := by
  obtain ⟨m0, hg0⟩ := writeGuard_of_occurs l 0 v hv (hasBit_zero v) hocc
  cases hlw : lastWAt 0 v l with
  | none => exact absurd hg0 ((lastWAt_spec l 0 v).2 hlw m0)
  | some m =>
    obtain ⟨hg, hmax⟩ := (lastWAt_spec l 0 v).1 m hlw
    obtain ⟨hm, hma, _, hdisj⟩ := hg
    obtain ⟨r, hr, hri, hrj⟩ := runsFromAux_cover l.length 0 l (le_refl _) m hm
    have hif := runsFromAux_item_fields l.length 0 l (le_refl _) r hr m hm hri hrj
    have hra : r.a = v := by
      rw [← hif.1]
      exact hma
    have hbnd := runsFromAux_bounds l.length 0 l (le_refl _) r hr
    have hrj1 : r.j = m + 1 := by
      by_contra hne
      have hlt : m + 1 < r.j := by omega
      have hm1 : m + 1 < l.length := by omega
      have hif1 := runsFromAux_item_fields l.length 0 l (le_refl _) r hr (m + 1) hm1
        (by omega) (by omega)
      apply hmax (m + 1) (by omega)
      refine ⟨hm1, ?_, hv, ?_⟩
      · rw [hif1.1, hra]
      · by_cases hrb : r.b = 4
        · rcases hdisj with hd | ⟨hd1, hd2⟩
          · rw [hif.2, hrb] at hd
            exact absurd rfl hd
          · refine Or.inr ⟨hd1, ?_⟩
            intro hs
            rcases (solidInPre_iff l v (m + 2)).mp hs with ⟨m2, hm2, hlt2, ha2, hb2⟩
            rcases Nat.lt_succ_iff_lt_or_eq.mp hlt2 with h6 | h6
            · exact hd2 ((solidInPre_iff l v (m + 1)).mpr ⟨m2, hm2, h6, ha2, hb2⟩)
            · subst h6
              rw [hif1.2, hrb] at hb2
              exact hb2 rfl
        · refine Or.inl ?_
          rw [hif1.2]
          exact hrb
    refine ⟨r, hr, hra, ?_, ?_⟩
    · intro hsup
      rcases hsup with ⟨ha4, _⟩ | ⟨hb4, hsol⟩
      · rw [hra] at ha4
        exact hv ha4
      · rw [hra] at hsol
        rcases (markFrom_hsa_iff v l ⟨0, 0, fun _ => none⟩ 0).mp hsol with
          h7 | ⟨p, hp, hpa, hpa4, hpb4⟩
        · rw [hasBit_zero] at h7
          exact Bool.noConfusion h7
        · obtain ⟨n, hgetp⟩ := List.mem_iff_get.mp hp
          by_cases hmp : n.1 ≤ m
          · rcases hdisj with hd | ⟨hd1, hd2⟩
            · rw [hif.2, hb4] at hd
              exact absurd rfl hd
            · apply hd2
              refine (solidInPre_iff l v (m + 1)).mpr ⟨n.1, n.2, by omega, ?_, ?_⟩
              · rw [show l.get ⟨n.1, n.2⟩ = p from hgetp]
                exact hpa
              · rw [show l.get ⟨n.1, n.2⟩ = p from hgetp]
                exact hpb4
          · apply hmax n.1 (by omega)
            refine ⟨n.2, ?_, hv, Or.inl ?_⟩
            · rw [show l.get ⟨n.1, n.2⟩ = p from hgetp]
              exact hpa
            · rw [show l.get ⟨n.1, n.2⟩ = p from hgetp]
              exact hpb4
    · rw [markGroup_la, hlw, hrj1]
      simp

/-- Helper: every emitted record covers at least one item. -/
theorem emitGroup_j_pos (l : List SItem) (rec : SRecord) (h : rec ∈ emitGroup l) :
    1 ≤ rec.j := by
  rw [show emitGroup l = emitRuns (markGroup l) 0 (runsFrom 0 l) from
    emitFrom_eq_emitRuns _ 0 0 l] at h
  obtain ⟨run, hrun, _, _, hj, _⟩ := emitRuns_mem_shape _ _ _ _ h
  have := (runsFromAux_bounds l.length 0 l (le_refl _) run hrun).2.1
  omega

/-- Helper: a record with LAST = 1 has a real successor recorded as the
last-a of its sub-group end. -/
theorem emitGroup_last_eq_one (l : List SItem) (rec : SRecord) (h : rec ∈ emitGroup l)
    (hl : rec.last = 1) :
    rec.a ≠ 4 ∧ (markGroup l).la rec.a = some (rec.j - 1) := by
  rw [show emitGroup l = emitRuns (markGroup l) 0 (runsFrom 0 l) from
    emitFrom_eq_emitRuns _ 0 0 l] at h
  obtain ⟨run, hrun, hns, hi, hj, ha, hb, hlast, hdol⟩ := emitRuns_mem_shape _ _ _ _ h
  rw [hlast] at hl
  by_cases h4 : run.a = 4
  · rw [if_pos h4] at hl
    exact absurd hl (by decide)
  · rw [if_neg h4] at hl
    by_cases h5 : (markGroup l).la run.a = some (run.j - 1)
    · refine ⟨by rw [ha]; exact h4, ?_⟩
      rw [ha, hj]
      exact h5
    · rw [if_neg h5] at hl
      exact absurd hl (by decide)

/-- Helper: each non-$ successor among the emitted records of a group is
carried by some emitted record with LAST = 1. -/
theorem emitGroup_last_exists (l : List SItem) (a : Nat) (ha4 : a ≠ 4)
    (h : ∃ rec ∈ emitGroup l, rec.a = a) :
    ∃ rec ∈ emitGroup l, rec.a = a ∧ rec.last = 1 := by
  obtain ⟨rec0, hrec0, hra0⟩ := h
  rw [show emitGroup l = emitRuns (markGroup l) 0 (runsFrom 0 l) from
    emitFrom_eq_emitRuns _ 0 0 l] at hrec0 ⊢
  obtain ⟨run0, hrun0, _, _, _, ha0, _, _, _⟩ := emitRuns_mem_shape _ _ _ _ hrec0
  obtain ⟨it, hit, hita, hitb⟩ := runsFromAux_rep_mem l.length 0 l run0 hrun0
  have hocc : ∃ it ∈ l, it.a = a := ⟨it, hit, by rw [hita, ← ha0, hra0]⟩
  obtain ⟨r, hr, hra, hns, hla⟩ := la_target_run l a ha4 hocc
  obtain ⟨rec, hrec, hi, hj, hrma, hrmb, hlast, _⟩ :=
    emitRuns_exists (markGroup l) (runsFrom 0 l) 0 r hr hns
  refine ⟨rec, hrec, by rw [hrma, hra], ?_⟩
  rw [hlast, if_neg (by rw [hra]; exact ha4), if_pos (by rw [hra]; exact hla)]

/-- Helper: the LAST count of one group equals the number of distinct
non-$ successor symbols among its emitted records. -/
theorem emitGroup_last_count (l : List SItem) :
    (emitGroup l).countP (fun r => r.last == 1) =
      (((emitGroup l).map (fun r => r.a)).filter (fun a => a != 4)).toFinset.card := by
  have hre : emitGroup l = emitRuns (markGroup l) 0 (runsFrom 0 l) :=
    emitFrom_eq_emitRuns _ 0 0 l
  have hpw : (emitGroup l).Pairwise (fun u v => u.i < v.i ∧ u.j < v.j) := by
    rw [hre]
    exact emitRuns_pairwise _ _ _ (runsFromAux_chain l.length 0 l (le_refl _))
      (fun x hx => (runsFromAux_bounds l.length 0 l (le_refl _) x hx).2.1)
  have hFpw : ((emitGroup l).filter (fun r => r.last == 1)).Pairwise
      (fun u v => u.i < v.i ∧ u.j < v.j) :=
    List.Pairwise.sublist (List.filter_sublist _) hpw
  have hnd : (((emitGroup l).filter (fun r => r.last == 1)).map (fun r => r.a)).Nodup := by
    refine List.pairwise_map.mpr ?_
    refine List.Pairwise.imp_of_mem ?_ hFpw
    intro u v hu hv huv
    intro hEq
    have hu1 := List.mem_filter.mp hu
    have hv1 := List.mem_filter.mp hv
    have hu2 := emitGroup_last_eq_one l u hu1.1 (by simpa using hu1.2)
    have hv2 := emitGroup_last_eq_one l v hv1.1 (by simpa using hv1.2)
    rw [hEq] at hu2
    have h6 := hu2.2.symm.trans hv2.2
    injection h6 with h6
    have hju := emitGroup_j_pos l u hu1.1
    have hjv := emitGroup_j_pos l v hv1.1
    have := huv.2
    omega
  have hset : (((emitGroup l).filter (fun r => r.last == 1)).map (fun r => r.a)).toFinset =
      (((emitGroup l).map (fun r => r.a)).filter (fun a => a != 4)).toFinset := by
    ext x
    simp only [List.mem_toFinset, List.mem_map, List.mem_filter]
    constructor
    · rintro ⟨rec, ⟨hrec, hlast⟩, hx⟩
      have h2 := emitGroup_last_eq_one l rec hrec (by simpa using hlast)
      exact ⟨⟨rec, hrec, hx⟩, by simp [← hx, h2.1]⟩
    · rintro ⟨⟨rec, hrec, hx⟩, hx4⟩
      have hx4b : x ≠ 4 := by simpa using hx4
      obtain ⟨rec2, hrec2, hra2, hl2⟩ := emitGroup_last_exists l x hx4b ⟨rec, hrec, hx⟩
      exact ⟨rec2, ⟨hrec2, by simp [hl2]⟩, hra2⟩
  calc (emitGroup l).countP (fun r => r.last == 1)
      = ((emitGroup l).filter (fun r => r.last == 1)).length :=
        List.countP_eq_length_filter _ _
    _ = (((emitGroup l).filter (fun r => r.last == 1)).map (fun r => r.a)).length :=
        (List.length_map _ _).symm
    _ = (((emitGroup l).filter (fun r => r.last == 1)).map (fun r => r.a)).toFinset.card :=
        (List.toFinset_card_of_nodup hnd).symm
    _ = (((emitGroup l).map (fun r => r.a)).filter (fun a => a != 4)).toFinset.card := by
        rw [hset]

/-- Helper: filtering non-$ pairs commutes with tagging each successor
with the group suffix. -/
theorem tagPairs_filter (t : Nat) :
    ∀ (recs : List SRecord),
      ((recs.map (fun r => (t, r.a))).filter (fun p => p.2 != 4)) =
        ((recs.map (fun r => r.a)).filter (fun a => a != 4)).map (fun a => (t, a)) := by
  intro recs
  induction recs with
  | nil => rfl
  | cons r recs ih =>
    simp only [List.map_cons]
    by_cases h : r.a = 4
    · rw [List.filter_cons_of_neg (by simp [h]), List.filter_cons_of_neg (by simp [h]), ih]
    · rw [List.filter_cons_of_pos (by simp [h]), List.filter_cons_of_pos (by simp [h]), ih,
        List.map_cons]

/-- Helper: every output pair's suffix is one of the group suffixes. -/
theorem outputPairs_fst :
    ∀ (gs : List (Nat × List SItem)) (p : Nat × Nat), p ∈ outputPairs gs →
      p.1 ∈ gs.map Prod.fst := by
  intro gs
  induction gs with
  | nil =>
    intro p hp
    simp [outputPairs] at hp
  | cons g gs ih =>
    intro p hp
    simp only [outputPairs, List.map_cons, List.flatten_cons, List.mem_append] at hp
    rcases hp with hp | hp
    · obtain ⟨r, _, hr⟩ := List.mem_map.mp hp
      simp [← hr]
    · simp only [List.map_cons, List.mem_cons]
      exact Or.inr (ih p hp)

/-- C6 counterexample: a one-item group whose only item has a $ successor
emits one record with LAST = 0, yet it contributes one distinct
(suffix, a) pair, so num_ones_in_last is not the number of distinct
(suffix, a) pairs over all records. -/
theorem num_ones_in_last_counterexample :
    numOnesInLast [(0, [⟨4, 0⟩])] = 0 ∧
      (outputPairs [(0, [⟨4, 0⟩])]).toFinset.card = 1 := by
  constructor
  · decide
  · decide

/-- C6 (amended): over groups with pairwise distinct (k-1)-mer suffixes,
num_ones_in_last equals the number of distinct (suffix, a) pairs with a
real successor a (a not $) across all output records; $-successor records
always carry LAST = 0 and are excluded. -/
theorem num_ones_in_last_rule (gs : List (Nat × List SItem))
    (hd : (gs.map Prod.fst).Nodup) :
    numOnesInLast gs =
      ((outputPairs gs).filter (fun p => p.2 != 4)).toFinset.card := by
  induction gs with
  | nil => rfl
  | cons g gs ih =>
    have hd2 : (gs.map Prod.fst).Nodup := by
      simp only [List.map_cons] at hd
      exact (List.nodup_cons.mp hd).2
    have hnotin : g.1 ∉ gs.map Prod.fst := by
      simp only [List.map_cons] at hd
      exact (List.nodup_cons.mp hd).1
    have h1 : numOnesInLast (g :: gs) =
        (emitGroup g.2).countP (fun r => r.last == 1) + numOnesInLast gs := by
      simp [numOnesInLast]
    have h2 : outputPairs (g :: gs) =
        ((emitGroup g.2).map (fun r => (g.1, r.a))) ++ outputPairs gs := by
      simp [outputPairs]
    have hdj : Disjoint
        (((emitGroup g.2).map (fun r => (g.1, r.a))).filter (fun p => p.2 != 4)).toFinset
        ((outputPairs gs).filter (fun p => p.2 != 4)).toFinset := by
      rw [Finset.disjoint_left]
      intro p hp1 hp2
      rw [List.mem_toFinset] at hp1 hp2
      have hpl := List.mem_filter.mp hp1
      have hpr := List.mem_filter.mp hp2
      obtain ⟨r, _, hr⟩ := List.mem_map.mp hpl.1
      have hfst : p.1 = g.1 := by rw [← hr]
      apply hnotin
      rw [← hfst]
      exact outputPairs_fst gs p hpr.1
    have h3 : ∀ (L : List Nat),
        ((L.map (fun a => (g.1, a))).toFinset).card = L.toFinset.card := by
      intro L
      have himg : (L.map (fun a => (g.1, a))).toFinset =
          L.toFinset.image (fun a => (g.1, a)) := by
        ext x
        simp
      rw [himg]
      exact Finset.card_image_of_injective _ (fun a b hab => congrArg Prod.snd hab)
    rw [h1, h2, List.filter_append, List.toFinset_append,
      Finset.card_union_of_disjoint hdj, tagPairs_filter g.1 (emitGroup g.2), h3,
      ← emitGroup_last_count g.2, ih hd2]

/-- Witness for C6 at two concrete groups with distinct suffixes. -/
theorem num_ones_in_last_rule_witness :
    (([((0 : Nat), [(⟨0, 2⟩ : SItem), ⟨1, 2⟩]), (1, [⟨2, 3⟩])]).map Prod.fst).Nodup ∧
      numOnesInLast [((0 : Nat), [(⟨0, 2⟩ : SItem), ⟨1, 2⟩]), (1, [⟨2, 3⟩])] =
        ((outputPairs [((0 : Nat), [(⟨0, 2⟩ : SItem), ⟨1, 2⟩]), (1, [⟨2, 3⟩])]).filter
          (fun p => p.2 != 4)).toFinset.card :=
  ⟨by decide, num_ones_in_last_rule _ (by decide)⟩

/-- Helper: Boolean form of the one-bit mask test. -/
theorem hasBit_one_shift_beq (u t : Nat) : hasBit (1 <<< u) t = (u == t) := by
  by_cases h : u = t
  · subst h
    simp [(hasBit_one_shift u u).mpr rfl]
  · have h2 : hasBit (1 <<< u) t = false := by
      cases hx : hasBit (1 <<< u) t with
      | false => rfl
      | true => exact absurd ((hasBit_one_shift u t).mp hx) h
    rw [h2, eq_comm]
    exact beq_eq_false_iff_ne.mpr h

/-- Helper: the W label of the m-th record of the output pass, in terms of
the initial duplicate mask and the earlier emitted records. -/
theorem emitRuns_w :
    ∀ (rs : List SRun) (ms : MarkSt) (outed : Nat) (m : Nat) (rec : SRecord),
      (emitRuns ms outed rs).get? m = some rec →
      rec.w =
        if rec.b = 4 then 0
        else if hasBit outed rec.b ||
            ((emitRuns ms outed rs).take m).any (fun p => p.b == rec.b)
          then rec.b + 5 else rec.b + 1 := by
  intro rs
  induction rs with
  | nil =>
    intro ms outed m rec hg
    simp [emitRuns] at hg
  | cons r rs ih =>
    intro ms outed m rec hg
    by_cases hs : suppressedRun ms r.a r.b
    · simp only [emitRuns, if_pos hs] at hg ⊢
      exact ih ms outed m rec hg
    · simp only [emitRuns, if_neg hs] at hg ⊢
      cases m with
      | zero =>
        rw [List.get?_cons_zero] at hg
        injection hg with hg
        subst hg
        simp
      | succ m =>
        rw [List.get?_cons_succ] at hg
        rw [ih _ _ m rec hg, List.take_succ_cons]
        simp only [List.any_cons]
        by_cases hb : rec.b = 4
        · rw [if_pos hb, if_pos hb]
        · rw [if_neg hb, if_neg hb, hasBit_or, hasBit_one_shift_beq, Bool.or_assoc]

/-- C1: for every record the SdBG emitter outputs for a (k-1)-mer group,
W = 0 when the BWT predecessor b is the sentinel $; otherwise W = b+1 when
no earlier emitted record of the group carries the same b, and W = b+5
when an earlier emitted record does. -/
theorem emitter_w_rule (l : List SItem) (m : Nat) (rec : SRecord)
    (hg : (emitGroup l).get? m = some rec) :
    rec.w =
      if rec.b = 4 then 0
      else if ((emitGroup l).take m).any (fun p => p.b == rec.b)
        then rec.b + 5 else rec.b + 1 := by
  have hre : emitGroup l = emitRuns (markGroup l) 0 (runsFrom 0 l) :=
    emitFrom_eq_emitRuns _ 0 0 l
  rw [hre] at hg ⊢
  rw [emitRuns_w (runsFrom 0 l) (markGroup l) 0 m rec hg, hasBit_zero, Bool.false_or]

/-- Witness for C1: in the group [(0,2), (1,2)] the second record repeats
b = 2 and carries W = 2 + 5. -/
theorem emitter_w_rule_witness :
    (emitGroup [(⟨0, 2⟩ : SItem), ⟨1, 2⟩]).get? 1 = some ⟨1, 2, 1, 2, 7, 1, 0⟩ ∧
      (⟨1, 2, 1, 2, 7, 1, 0⟩ : SRecord).w =
        if (⟨1, 2, 1, 2, 7, 1, 0⟩ : SRecord).b = 4 then 0
        else if ((emitGroup [(⟨0, 2⟩ : SItem), ⟨1, 2⟩]).take 1).any
            (fun p => p.b == (⟨1, 2, 1, 2, 7, 1, 0⟩ : SRecord).b)
          then (⟨1, 2, 1, 2, 7, 1, 0⟩ : SRecord).b + 5
          else (⟨1, 2, 1, 2, 7, 1, 0⟩ : SRecord).b + 1 :=
  ⟨by decide, emitter_w_rule [⟨0, 2⟩, ⟨1, 2⟩] 1 ⟨1, 2, 1, 2, 7, 1, 0⟩ (by decide)⟩

/-- C2: within a (k-1)-mer group, a sub-group whose successor a is $ while
its b is solid, or whose predecessor b is $ while its a is solid, emits no
record, and every other sub-group emits exactly one; a symbol is solid
exactly when it occurs on an item of the group with both symbols real. -/
theorem emitter_suppression_rule (l : List SItem) (r : SRun) (hr : r ∈ runsFrom 0 l) :
    ((emitGroup l).countP (fun rec => rec.i == r.i) =
      if suppressedRun (markGroup l) r.a r.b then 0 else 1) ∧
    (suppressedRun (markGroup l) r.a r.b ↔
      (r.a = 4 ∧ ∃ p ∈ l, p.b = r.b ∧ p.a ≠ 4 ∧ p.b ≠ 4) ∨
      (r.b = 4 ∧ ∃ p ∈ l, p.a = r.a ∧ p.a ≠ 4 ∧ p.b ≠ 4)) := by
  have hre : emitGroup l = emitRuns (markGroup l) 0 (runsFrom 0 l) :=
    emitFrom_eq_emitRuns _ 0 0 l
  have hchain := runsFromAux_chain l.length 0 l (le_refl _)
  have hlt : ∀ x ∈ runsFrom 0 l, x.i < x.j :=
    fun x hx => (runsFromAux_bounds l.length 0 l (le_refl _) x hx).2.1
  constructor
  · rw [hre]
    by_cases hs : suppressedRun (markGroup l) r.a r.b
    · rw [if_pos hs]
      apply List.countP_eq_zero.mpr
      intro rec hrec hq
      obtain ⟨run, hrun, hns, hi, _⟩ := emitRuns_mem_shape _ _ _ _ hrec
      have hieq : rec.i = r.i := by simpa using hq
      by_cases hrr : run = r
      · rw [hrr] at hns
        exact hns hs
      · have hpne : (runsFrom 0 l).Pairwise (fun u v => u.i ≠ v.i) := by
          refine List.Pairwise.imp_of_mem ?_ hchain
          intro u v hu hv huv
          have := hlt u hu
          omega
        have hsym : Symmetric (fun (u v : SRun) => u.i ≠ v.i) :=
          fun u v h => Ne.symm h
        exact (List.Pairwise.forall hsym hpne hrun hr hrr) (hi.symm.trans hieq)
    · rw [if_neg hs]
      have hpw : (emitRuns (markGroup l) 0 (runsFrom 0 l)).Pairwise
          (fun u v => u.i < v.i ∧ u.j < v.j) := emitRuns_pairwise _ _ _ hchain hlt
      obtain ⟨rec, hrec, hi, _⟩ := emitRuns_exists (markGroup l) (runsFrom 0 l) 0 r hr hs
      have hpair : (emitRuns (markGroup l) 0 (runsFrom 0 l)).Pairwise
          (fun u v => ¬ ((fun rec2 => rec2.i == r.i) u = true ∧
            (fun rec2 => rec2.i == r.i) v = true)) := by
        refine List.Pairwise.imp_of_mem ?_ hpw
        intro u v hu hv huv
        rintro ⟨hqu, hqv⟩
        have h1 : u.i = r.i := by simpa using hqu
        have h2 : v.i = r.i := by simpa using hqv
        have := huv.1
        omega
      exact countP_eq_one_of_mem_unique _ _ hpair rec hrec (by simp [hi])
  · unfold suppressedRun
    constructor
    · rintro (⟨ha, hb⟩ | ⟨hb, ha⟩)
      · refine Or.inl ⟨ha, ?_⟩
        rcases (markFrom_hsb_iff r.b l ⟨0, 0, fun _ => none⟩ 0).mp hb with h | h
        · rw [hasBit_zero] at h
          exact Bool.noConfusion h
        · exact h
      · refine Or.inr ⟨hb, ?_⟩
        rcases (markFrom_hsa_iff r.a l ⟨0, 0, fun _ => none⟩ 0).mp ha with h | h
        · rw [hasBit_zero] at h
          exact Bool.noConfusion h
        · exact h
    · rintro (⟨ha, p, hp, h1, h2, h3⟩ | ⟨hb, p, hp, h1, h2, h3⟩)
      · exact Or.inl ⟨ha, (markFrom_hsb_iff r.b l ⟨0, 0, fun _ => none⟩ 0).mpr
          (Or.inr ⟨p, hp, h1, h2, h3⟩)⟩
      · exact Or.inr ⟨hb, (markFrom_hsa_iff r.a l ⟨0, 0, fun _ => none⟩ 0).mpr
          (Or.inr ⟨p, hp, h1, h2, h3⟩)⟩

/-- Witness for C2: in the group [(0,2), (0,4)] the sub-group (0,$) is
suppressed because a = 0 is solid, and emits no record. -/
theorem emitter_suppression_rule_witness :
    (⟨1, 2, 0, 4⟩ : SRun) ∈ runsFrom 0 [(⟨0, 2⟩ : SItem), ⟨0, 4⟩] ∧
      (((emitGroup [(⟨0, 2⟩ : SItem), ⟨0, 4⟩]).countP
          (fun rec => rec.i == (⟨1, 2, 0, 4⟩ : SRun).i) =
        if suppressedRun (markGroup [(⟨0, 2⟩ : SItem), ⟨0, 4⟩])
            (⟨1, 2, 0, 4⟩ : SRun).a (⟨1, 2, 0, 4⟩ : SRun).b then 0 else 1) ∧
      (suppressedRun (markGroup [(⟨0, 2⟩ : SItem), ⟨0, 4⟩])
          (⟨1, 2, 0, 4⟩ : SRun).a (⟨1, 2, 0, 4⟩ : SRun).b ↔
        ((⟨1, 2, 0, 4⟩ : SRun).a = 4 ∧ ∃ p ∈ [(⟨0, 2⟩ : SItem), ⟨0, 4⟩],
          p.b = (⟨1, 2, 0, 4⟩ : SRun).b ∧ p.a ≠ 4 ∧ p.b ≠ 4) ∨
        ((⟨1, 2, 0, 4⟩ : SRun).b = 4 ∧ ∃ p ∈ [(⟨0, 2⟩ : SItem), ⟨0, 4⟩],
          p.a = (⟨1, 2, 0, 4⟩ : SRun).a ∧ p.a ≠ 4 ∧ p.b ≠ 4))) :=
  ⟨by decide, emitter_suppression_rule [⟨0, 2⟩, ⟨0, 4⟩] ⟨1, 2, 0, 4⟩ (by decide)⟩
